import Mathlib

/-!
Bitcask: a log-structured key-value store.

A shallow embedding of `db.go`, `db_file.go` and `errors.go`.

* Go's `error` is `Option Error` (`none` is `nil`).
* A `[]byte` is a `List Byte`; a nil slice and an empty slice are both `[]`.
* `map[string]int64` is a function `List Byte → Option Nat`; the code only
  looks keys up, stores and deletes them, and never iterates over the map.
* The directory of the store is a `FileSys`: the contents of every file ever
  created (by inode number) and the two directory entries `bitcask.data` and
  `bitcask.merge`.  An `*os.File` is an `OsFile`: the inode it refers to, the
  name it was opened under and whether it has been closed.
* Offsets are natural numbers (`int64` cannot overflow on a file that exists).
* Outcomes of the operating system that the code cannot decide (a write that
  fails, an open that fails) are explicit arguments of the operations.
* The readers-writer lock is not modelled: operations run one after another.
* A method called through a nil `dbFile` pointer panics in Go; the operations
  return `none` for that.
-/

namespace bitcask

abbrev Byte := UInt8

/-- Go error values; `EOF` is `io.EOF`, `ErrClosed` is `os.ErrClosed`,
`ErrWrite` and `ErrOpen` stand for a failure reported by the operating system. -/
inductive Error
  | EOF
  | ErrKeyNotFound
  | ErrInvalidDatabaseFile
  | ErrCorruptRecord
  | ErrClosed
  | ErrWrite
  | ErrOpen
  | ErrStat
  deriving DecidableEq, Repr

/-! ## Record codec -/

/-- Modelled from the spec: the constant `entryHeaderSize` of the record codec,
whose file is absent; the header is `[ks:4][vs:4][mark:2]`. -/
def entryHeaderSize : Nat := 10

/-- Modelled from the spec: the mark `PUT = 0` of the absent record codec. -/
def PUT : Nat := 0

/-- Modelled from the spec: the mark `DEL = 1` of the absent record codec. -/
def DEL : Nat := 1

/-- Modelled from the spec: the type `Entry` of the absent record codec, with
an unsigned 32-bit `KeySize` and `ValueSize` and a 16-bit `Mark`. -/
structure Entry where
  Key : List Byte
  Value : List Byte
  KeySize : Nat
  ValueSize : Nat
  Mark : Nat
  deriving DecidableEq, Repr

/-- Modelled from the spec: `newEntry` of the absent record codec; the sizes
are the lengths of key and value converted to unsigned 32-bit. -/
def newEntry (key value : List Byte) (mark : Nat) : Entry :=
  { Key := key, Value := value,
    KeySize := key.length % 2 ^ 32, ValueSize := value.length % 2 ^ 32, Mark := mark }

/-- Modelled from the spec: `Entry.GetSize` of the absent record codec,
`header_size + key_size + value_size`. -/
def Entry.GetSize (e : Entry) : Nat :=
  entryHeaderSize + e.KeySize + e.ValueSize

/-- Four bytes, little-endian, of an unsigned 32-bit number. -/
def putUint32 (n : Nat) : List Byte :=
  [UInt8.ofNat n, UInt8.ofNat (n / 256), UInt8.ofNat (n / 65536), UInt8.ofNat (n / 16777216)]

/-- Two bytes, little-endian, of an unsigned 16-bit number. -/
def putUint16 (n : Nat) : List Byte :=
  [UInt8.ofNat n, UInt8.ofNat (n / 256)]

/-- The little-endian number held by a list of bytes. -/
def leNat : List Byte → Nat
  | [] => 0
  | b :: bs => b.toNat + 256 * leNat bs

/-- Exactly `n` bytes of `xs`: cut when longer, zero-filled when shorter. -/
def fit (n : Nat) (xs : List Byte) : List Byte :=
  xs.take n ++ List.replicate (n - xs.length) 0

/-- Modelled from the spec: `Entry.Encode` of the absent record codec; a buffer
of exactly `GetSize()` bytes laid out `[ks:4][vs:4][mark:2][key:ks][value:vs]`,
integers little-endian. It never fails. -/
def Entry.Encode (e : Entry) : Except Error (List Byte) :=
  .ok (putUint32 e.KeySize ++ putUint32 e.ValueSize ++ putUint16 e.Mark
        ++ fit e.KeySize e.Key ++ fit e.ValueSize e.Value)

/-- Modelled from the spec: `Decode` of the absent record codec; from a header
buffer it fills sizes and mark and leaves key and value empty, and fails with
`CorruptRecord` when the mark is neither `PUT` nor `DEL`. -/
def Decode (buf : List Byte) : Except Error Entry :=
  let ks := leNat (buf.take 4)
  let vs := leNat ((buf.drop 4).take 4)
  let mark := leNat ((buf.drop 8).take 2)
  if mark = PUT ∨ mark = DEL then
    .ok { Key := [], Value := [], KeySize := ks, ValueSize := vs, Mark := mark }
  else .error Error.ErrCorruptRecord

/-! ## The directory and its files -/

/-- The two well-known file names, `FileName` and `MergeFileName`. -/
inductive FName
  | data
  | merge
  deriving DecidableEq, Repr

/-- An `*os.File`. -/
structure OsFile where
  ino : Nat
  name : FName
  closed : Bool
  deriving DecidableEq, Repr

/-- The directory of the store. -/
structure FileSys where
  inodes : Nat → List Byte
  nextIno : Nat
  dataIno : Option Nat
  mergeIno : Option Nat

def FileSys.lookup (fs : FileSys) : FName → Option Nat
  | .data => fs.dataIno
  | .merge => fs.mergeIno

def FileSys.setName (fs : FileSys) (n : FName) (i : Option Nat) : FileSys :=
  match n with
  | .data => { fs with dataIno := i }
  | .merge => { fs with mergeIno := i }

def FileSys.setContent (fs : FileSys) (i : Nat) (c : List Byte) : FileSys :=
  { fs with inodes := fun j => if j = i then c else fs.inodes j }

/-- What the operating system does with an open request. -/
inductive OpenOutcome
  | ok
  | openFails
  | statFails
  deriving DecidableEq, Repr

/-- What the operating system does with a positional write: all bytes
written, or only the first `n` and an error. -/
inductive WriteOutcome
  | ok
  | short (n : Nat)
  deriving DecidableEq, Repr

/-- The function `os.OpenFile(name, O_CREATE|O_RDWR, 0644)` when it succeeds: the file is
created empty when the name does not exist. -/
def osOpenFile (fs : FileSys) (name : FName) : OsFile × FileSys :=
  match fs.lookup name with
  | some i => ({ ino := i, name := name, closed := false }, fs)
  | none =>
    let i := fs.nextIno
    ({ ino := i, name := name, closed := false },
      ({ fs with nextIno := i + 1 }.setContent i []).setName name (some i))

/-- The function `os.Remove(name)`; the code ignores its error. -/
def osRemove (fs : FileSys) (name : FName) : FileSys :=
  fs.setName name none

/-- The function `os.Rename(from, to)`; the code ignores its error. -/
def osRename (fs : FileSys) (src dst : FName) : FileSys :=
  match fs.lookup src with
  | none => fs
  | some i => if src = dst then fs else (fs.setName dst (some i)).setName src none

/-- The function `File.Close()`. -/
def OsFile.Close (f : OsFile) : Option Error × OsFile :=
  if f.closed then (some Error.ErrClosed, f) else (none, { f with closed := true })

/-- The function `File.ReadAt(buf, off)` with `len(buf) = n`: the bytes read, or `io.EOF`
when fewer than `n` bytes lie at `off`. -/
def OsFile.ReadAt (f : OsFile) (fs : FileSys) (n off : Nat) : Except Error (List Byte) :=
  if f.closed then .error Error.ErrClosed
  else if n = 0 then .ok []
  else if off + n ≤ (fs.inodes f.ino).length then .ok (((fs.inodes f.ino).drop off).take n)
  else .error Error.EOF

/-- The content of a file after `b` has been written at `off`; a gap between
the old end of the file and `off` reads as zeros. -/
def writeBytes (content : List Byte) (off : Nat) (b : List Byte) : List Byte :=
  if b = [] then content
  else content.take off ++ List.replicate (off - content.length) 0 ++ b
        ++ content.drop (off + b.length)

/-- The function `File.WriteAt(b, off)`. -/
def OsFile.WriteAt (f : OsFile) (fs : FileSys) (b : List Byte) (off : Nat) (w : WriteOutcome) :
    Option Error × FileSys :=
  if f.closed then (some Error.ErrClosed, fs)
  else match w with
    | .ok => (none, fs.setContent f.ino (writeBytes (fs.inodes f.ino) off b))
    | .short n => (some Error.ErrWrite, fs.setContent f.ino (writeBytes (fs.inodes f.ino) off (b.take n)))

/-! ## `db_file.go` -/

/-- The type `DatabaseFile` (the header buffer pool is not observable). -/
structure DatabaseFile where
  File : OsFile
  Offset : Nat
  deriving DecidableEq, Repr

def newInternal (fs : FileSys) (fileName : FName) (o : OpenOutcome) :
    Except Error DatabaseFile × FileSys :=
  match o with
  | .openFails => (.error Error.ErrOpen, fs)
  | .statFails => (.error Error.ErrStat, (osOpenFile fs fileName).2)
  | .ok =>
    let (file, fs1) := osOpenFile fs fileName
    (.ok { Offset := (fs1.inodes file.ino).length, File := file }, fs1)

def NewDataBaseFile (fs : FileSys) (o : OpenOutcome) : Except Error DatabaseFile × FileSys :=
  newInternal fs FName.data o

def NewMergeDatabaseFile (fs : FileSys) (o : OpenOutcome) : Except Error DatabaseFile × FileSys :=
  newInternal fs FName.merge o

/-- The function `DatabaseFile.Read`: the named results `(e, err)`. -/
def DatabaseFile.Read (df : DatabaseFile) (fs : FileSys) (offset : Nat) :
    Option Entry × Option Error :=
  match df.File.ReadAt fs entryHeaderSize offset with
  | .error err => (none, some err)
  | .ok buf =>
    match Decode buf with
    | .error err => (none, some err)
    | .ok e =>
      let offset := offset + entryHeaderSize
      match (if e.KeySize > 0 then
               (df.File.ReadAt fs e.KeySize offset).map (fun key => { e with Key := key })
             else .ok e) with
      | .error err => (some e, some err)
      | .ok e =>
        let offset := offset + e.KeySize
        match (if e.ValueSize > 0 then
                 (df.File.ReadAt fs e.ValueSize offset).map (fun value => { e with Value := value })
               else .ok e) with
        | .error err => (some e, some err)
        | .ok e => (some e, none)

/-- The function `DatabaseFile.Write`: the error of `WriteAt` is dropped and the cursor
always advances. -/
def DatabaseFile.Write (df : DatabaseFile) (fs : FileSys) (e : Entry) (w : WriteOutcome) :
    Option Error × DatabaseFile × FileSys :=
  match e.Encode with
  | .error err => (some err, df, fs)
  | .ok enc =>
    let (_, fs1) := df.File.WriteAt fs enc df.Offset w
    (none, { df with Offset := df.Offset + e.GetSize }, fs1)

/-! ## `db.go` -/

abbrev Keydir := List Byte → Option Nat

def Keydir.empty : Keydir := fun _ => none

def Keydir.set (m : Keydir) (k : List Byte) (o : Nat) : Keydir :=
  fun k1 => if k1 = k then some o else m k1

def Keydir.delete (m : Keydir) (k : List Byte) : Keydir :=
  fun k1 => if k1 = k then none else m k1

/-- The type `Bitcask` (one directory, no lock). -/
structure Bitcask where
  dbFile : Option DatabaseFile
  indexes : Keydir

def Bitcask.exist (db : Bitcask) (key : List Byte) : Nat × Option Error :=
  match db.indexes key with
  | none => (0, some Error.ErrKeyNotFound)
  | some offset => (offset, none)

def Bitcask.Put (db : Bitcask) (fs : FileSys) (key value : List Byte) (w : WriteOutcome) :
    Option (Option Error × Bitcask × FileSys) :=
  if key.length = 0 then some (none, db, fs)
  else
    match db.dbFile with
    | none => none
    | some df =>
      let offset := df.Offset
      let entry := newEntry key value PUT
      let (err, df1, fs1) := df.Write fs entry w
      some (err, { db with dbFile := some df1, indexes := db.indexes.set key offset }, fs1)

/-- The function `Bitcask.Get`: `err` is the named result, so the error of `exist` and an
`io.EOF` of `Read` are what the bare `return` hands back. -/
def Bitcask.Get (db : Bitcask) (fs : FileSys) (key : List Byte) :
    Option (List Byte × Option Error) :=
  if key.length = 0 then some ([], none)
  else
    let (offset, err) := db.exist key
    if err = some Error.ErrKeyNotFound then some ([], err)
    else
      match db.dbFile with
      | none => none
      | some df =>
        let (e, err) := df.Read fs offset
        if err ≠ none ∧ err ≠ some Error.EOF then some ([], err)
        else
          match e with
          | some e => some (e.Value, err)
          | none => some ([], err)

def Bitcask.Del (db : Bitcask) (fs : FileSys) (key : List Byte) (w : WriteOutcome) :
    Option (Option Error × Bitcask × FileSys) :=
  if key.length = 0 then some (none, db, fs)
  else
    let (_, err) := db.exist key
    if err = some Error.ErrKeyNotFound then some (none, db, fs)
    else
      match db.dbFile with
      | none => none
      | some df =>
        let e := newEntry key [] DEL
        let (err, df1, fs1) := df.Write fs e w
        if err ≠ none then some (err, { db with dbFile := some df1 }, fs1)
        else some (none, { db with dbFile := some df1, indexes := db.indexes.delete key }, fs1)


/-- The loop of `loadIndexerFromFile`; `none` when the fuel runs out. -/
def loadLoop (df : DatabaseFile) (fs : FileSys) : Nat → Nat → Keydir → Option Keydir
  | 0, _, _ => none
  | fuel + 1, offset, indexes =>
    match df.Read fs offset with
    | (_, some err) => if err = Error.EOF then some indexes else some indexes
    | (none, none) => none
    | (some e, none) =>
      let indexes := indexes.set e.Key offset
      let indexes := if e.Mark = DEL then indexes.delete e.Key else indexes
      loadLoop df fs fuel (offset + e.GetSize) indexes

/-- The function `Bitcask.loadIndexerFromFile`; every pass of the loop moves the offset
forward by at least the header size, so the size of the file bounds the
number of passes. -/
def Bitcask.loadIndexerFromFile (db : Bitcask) (fs : FileSys) : Option Bitcask :=
  match db.dbFile with
  | none => some db
  | some df =>
    (loadLoop df fs ((fs.inodes df.File.ino).length + 1) 0 db.indexes).map
      (fun indexes => { db with indexes := indexes })

/-- The function `Open`, from the point where the directory exists: `none` only when the
replay loop runs out of fuel. -/
def Open (fs : FileSys) (o : OpenOutcome) : Option (Except Error Bitcask × FileSys) :=
  match NewDataBaseFile fs o with
  | (.error err, fs1) => some (.error err, fs1)
  | (.ok dbFile, fs1) =>
    let db : Bitcask := { dbFile := some dbFile, indexes := Keydir.empty }
    (db.loadIndexerFromFile fs1).map (fun db => (.ok db, fs1))

/-- The first loop of `Merge` (phase 1): collect the live records. -/
def mergeScan (df : DatabaseFile) (fs : FileSys) (indexes : Keydir) :
    Nat → Nat → List Entry → Option (Except Error (List Entry))
  | 0, _, _ => none
  | fuel + 1, offset, validEntries =>
    match df.Read fs offset with
    | (_, some err) => if err = Error.EOF then some (.ok validEntries) else some (.error err)
    | (none, none) => none
    | (some e, none) =>
      let validEntries :=
        if indexes e.Key = some offset then validEntries ++ [e] else validEntries
      mergeScan df fs indexes fuel (offset + e.GetSize) validEntries

/-- The second loop of `Merge`: write the live records to the merge file and
repoint the keydir, one record at a time. -/
def mergeWrite (mergeFile : DatabaseFile) (fs : FileSys) (indexes : Keydir) :
    List Entry → List WriteOutcome → Option Error × DatabaseFile × FileSys × Keydir
  | [], _ => (none, mergeFile, fs, indexes)
  | entry :: rest, ws =>
    let writeOff := mergeFile.Offset
    let (err, mergeFile1, fs1) := mergeFile.Write fs entry (ws.headD WriteOutcome.ok)
    if err ≠ none then (err, mergeFile1, fs1, indexes)
    else mergeWrite mergeFile1 fs1 (indexes.set entry.Key writeOff) rest ws.tail

/-- What the operating system does during one `Merge`. -/
structure MergeOutcomes where
  mergeOpen : OpenOutcome
  writes : List WriteOutcome
  reopen : OpenOutcome

/-- All of `Merge` succeeds at the operating system. -/
def MergeOutcomes.allOk : MergeOutcomes :=
  { mergeOpen := OpenOutcome.ok, writes := [], reopen := OpenOutcome.ok }

/-- Phase 1 of `Merge`, after the test of the cursor. -/
def Bitcask.mergeCollect (db : Bitcask) (fs : FileSys) : Option (Except Error (List Entry)) :=
  match db.dbFile with
  | none => none
  | some df => mergeScan df fs db.indexes ((fs.inodes df.File.ino).length + 1) 0 []

/-- Phases 2 and 3 of `Merge`: from `NewMergeDatabaseFile` to the end; the
deferred `os.Remove` of the merge file runs at every exit. -/
def Bitcask.mergeSwap (db : Bitcask) (fs : FileSys) (validEntries : List Entry)
    (os : MergeOutcomes) : Option (Option Error × Bitcask × FileSys) :=
  match NewMergeDatabaseFile fs os.mergeOpen with
  | (.error err, fs1) => some (some err, db, fs1)
  | (.ok mergeFile, fs1) =>
    let (err, mergeFile1, fs2, indexes) :=
      mergeWrite mergeFile fs1 db.indexes validEntries os.writes
    if err ≠ none then
      some (err, { db with indexes := indexes }, osRemove fs2 mergeFile1.File.name)
    else
      match db.dbFile with
      | none => none
      | some df =>
        let dbFileName := df.File.name
        let (_, oldFile) := df.File.Close
        let fs3 := osRemove fs2 dbFileName
        let (_, closedMerge) := mergeFile1.File.Close
        let mergeFileName := closedMerge.name
        let fs4 := osRename fs3 mergeFileName FName.data
        match NewDataBaseFile fs4 os.reopen with
        | (.error err, fs5) =>
          some (some err, { dbFile := some { df with File := oldFile }, indexes := indexes },
            osRemove fs5 mergeFileName)
        | (.ok dbFile, fs5) =>
          some (none, { dbFile := some dbFile, indexes := indexes }, osRemove fs5 mergeFileName)

def Bitcask.Merge (db : Bitcask) (fs : FileSys) (os : MergeOutcomes) :
    Option (Option Error × Bitcask × FileSys) :=
  match db.dbFile with
  | none => none
  | some df =>
    if df.Offset = 0 then some (none, db, fs)
    else
      match db.mergeCollect fs with
      | none => none
      | some (.error err) => some (some err, db, fs)
      | some (.ok validEntries) => db.mergeSwap fs validEntries os

def Bitcask.Close (db : Bitcask) : Option Error × Bitcask :=
  match db.dbFile with
  | none => (some Error.ErrInvalidDatabaseFile, db)
  | some df =>
    let (err, f) := df.File.Close
    (err, { db with dbFile := some { df with File := f } })

/-- An empty directory. -/
def FileSys.init : FileSys :=
  { inodes := fun _ => [], nextIno := 0, dataIno := none, mergeIno := none }

/-- A directory whose only file is `bitcask.data` with the given content. -/
def FileSys.ofLog (log : List Byte) : FileSys :=
  { inodes := fun i => if i = 0 then log else [], nextIno := 1, dataIno := some 0, mergeIno := none }

/-! ## Vocabulary of the statements -/

/-- The header bytes of a record. -/
def Entry.header (e : Entry) : List Byte :=
  putUint32 e.KeySize ++ putUint32 e.ValueSize ++ putUint16 e.Mark

/-- The bytes that `Encode` produces. -/
def Entry.bytes (e : Entry) : List Byte :=
  e.header ++ fit e.KeySize e.Key ++ fit e.ValueSize e.Value

/-- A record whose sizes are the lengths of its key and value, both within
32 bits, and whose mark is `PUT` or `DEL`. -/
def Entry.WellFormed (e : Entry) : Prop :=
  e.KeySize = e.Key.length ∧ e.ValueSize = e.Value.length ∧
    e.Key.length < 2 ^ 32 ∧ e.Value.length < 2 ^ 32 ∧ (e.Mark = PUT ∨ e.Mark = DEL)

instance (e : Entry) : Decidable e.WellFormed := by
  unfold Entry.WellFormed; infer_instance

/-- The handle that `Open` obtains on an empty directory. -/
def freshFile : DatabaseFile :=
  { File := { ino := 0, name := FName.data, closed := false }, Offset := 0 }

/-- The store that `Open` returns on an empty directory. -/
def freshDb : Bitcask :=
  { dbFile := some freshFile, indexes := Keydir.empty }

/-- The directory after `Open` on an empty directory. -/
def freshFs : FileSys :=
  (osOpenFile FileSys.init FName.data).2

/-- The bytes below the write position, zero-filled up to it. -/
def below (content : List Byte) (off : Nat) : List Byte :=
  content.take off ++ List.replicate (off - content.length) 0

/-- The bytes of a log that holds the given records, one after the other. -/
def logBytes : List Entry → List Byte
  | [] => []
  | e :: es => e.bytes ++ logBytes es

/-- The records of a log paired with their offsets, the first lying at `off`. -/
def withOffsets : List Entry → Nat → List (Nat × Entry)
  | [], _ => []
  | e :: es, off => (off, e) :: withOffsets es (off + e.GetSize)

/-- One pass of the replay loop on the record `e` read at `off`. -/
def Keydir.apply (indexes : Keydir) (e : Entry) (off : Nat) : Keydir :=
  if e.Mark = DEL then (indexes.set e.Key off).delete e.Key else indexes.set e.Key off

/-- The replay loop run over a list of records, the first lying at `off`. -/
def replay : List Entry → Nat → Keydir → Keydir
  | [], _, indexes => indexes
  | e :: es, off, indexes => replay es (off + e.GetSize) (indexes.apply e off)

/-- The records of a log whose offset is the keydir entry of their key, in
log order. -/
def liveRecords (indexes : Keydir) (es : List Entry) : List (Nat × Entry) :=
  (withOffsets es 0).filter (fun p => indexes p.2.Key = some p.1)

/-- A tail of a log that is a proper, possibly empty, beginning of one encoded
record. -/
def TornTail (p : List Byte) : Prop :=
  ∃ (e : Entry) (q : List Byte), e.WellFormed ∧ p ++ q = e.bytes ∧ q ≠ []

/-- The handle that `NewDataBaseFile` returns on a data file with inode `i`
that holds `n` bytes. -/
def dataHandle (i n : Nat) : DatabaseFile :=
  { File := { ino := i, name := FName.data, closed := false }, Offset := n }

/-- The store is open on a data file that holds exactly the records `es`, the
cursor is at its end and the keydir is the replay of `es`. -/
def Inv (db : Bitcask) (fs : FileSys) (es : List Entry) : Prop :=
  ∃ i, db.dbFile = some (dataHandle i (logBytes es).length) ∧ fs.dataIno = some i ∧
    fs.inodes i = logBytes es ∧ (∀ e ∈ es, e.WellFormed) ∧
    db.indexes = replay es 0 Keydir.empty

/-- A `Put` or a `Del` request. -/
inductive Op
  | put (key value : List Byte)
  | del (key : List Byte)
  deriving DecidableEq, Repr

/-- Key and value of the request fit the 32-bit size fields of a record. -/
def Op.Fits : Op → Prop
  | .put key value => key.length < 2 ^ 32 ∧ value.length < 2 ^ 32
  | .del key => key.length < 2 ^ 32

instance (op : Op) : Decidable op.Fits := by
  cases op <;> unfold Op.Fits <;> infer_instance

/-- One request run on the store, its write succeeding; `none` when the call
panics or returns an error. -/
def applyOp (s : Bitcask × FileSys) : Op → Option (Bitcask × FileSys)
  | .put key value =>
    match s.1.Put s.2 key value WriteOutcome.ok with
    | some (none, db, fs) => some (db, fs)
    | _ => none
  | .del key =>
    match s.1.Del s.2 key WriteOutcome.ok with
    | some (none, db, fs) => some (db, fs)
    | _ => none

/-- A sequence of requests run one after the other. -/
def runOps : List Op → Bitcask × FileSys → Option (Bitcask × FileSys)
  | [], s => some s
  | op :: ops, s =>
    match applyOp s op with
    | none => none
    | some s1 => runOps ops s1

/-- The second loop of `Merge` on the keydir alone: each record of the list
is stored under its key at the offset it gets in the merge file, which is
`off` for the first. -/
def repoint : List Entry → Nat → Keydir → Keydir
  | [], _, indexes => indexes
  | e :: es, off, indexes => repoint es (off + e.GetSize) (indexes.set e.Key off)

/-- The data file of the directory is absent (and `es` is empty) or holds
exactly the well-formed records `es`. -/
def FileSys.HoldsLog (fs : FileSys) (es : List Entry) : Prop :=
  (∀ e ∈ es, e.WellFormed) ∧
    ((fs.dataIno = none ∧ es = []) ∨ ∃ i, fs.dataIno = some i ∧ fs.inodes i = logBytes es)

/-- A `Merge` during which everything succeeds except the reopening of the
renamed data file. -/
def MergeOutcomes.reopenFails : MergeOutcomes :=
  { mergeOpen := OpenOutcome.ok, writes := [], reopen := OpenOutcome.openFails }

/-- The last record of the log `es` that bears the key `k` is a `PUT` record
and lies at offset `o`. -/
def LastPutAt (es : List Entry) (k : List Byte) (o : Nat) : Prop :=
  ∃ e, (o, e) ∈ withOffsets es 0 ∧ e.Key = k ∧ e.Mark = PUT ∧
    ∀ q ∈ withOffsets es 0, q.2.Key = k → q.1 ≤ o

/-- The last record of the log `es` that bears the key `k` is a `DEL` record. -/
def LastIsDel (es : List Entry) (k : List Byte) : Prop :=
  ∃ o e, (o, e) ∈ withOffsets es 0 ∧ e.Key = k ∧ e.Mark = DEL ∧
    ∀ q ∈ withOffsets es 0, q.2.Key = k → q.1 ≤ o

/-- A `Put`, a `Del` or a `Merge` request. -/
inductive Step
  | put (key value : List Byte)
  | del (key : List Byte)
  | merge
  deriving DecidableEq, Repr

/-- Key and value of the request fit the 32-bit size fields of a record. -/
def Step.Fits : Step → Prop
  | .put key value => key.length < 2 ^ 32 ∧ value.length < 2 ^ 32
  | .del key => key.length < 2 ^ 32
  | .merge => True

instance (st : Step) : Decidable st.Fits := by
  cases st <;> unfold Step.Fits <;> infer_instance

/-- One request run on the store, every step of the operating system
succeeding; `none` when the call panics or returns an error. -/
def applyStep (s : Bitcask × FileSys) : Step → Option (Bitcask × FileSys)
  | .put key value =>
    match s.1.Put s.2 key value WriteOutcome.ok with
    | some (none, db, fs) => some (db, fs)
    | _ => none
  | .del key =>
    match s.1.Del s.2 key WriteOutcome.ok with
    | some (none, db, fs) => some (db, fs)
    | _ => none
  | .merge =>
    match s.1.Merge s.2 MergeOutcomes.allOk with
    | some (none, db, fs) => some (db, fs)
    | _ => none

/-- A sequence of requests run one after the other. -/
def runSteps : List Step → Bitcask × FileSys → Option (Bitcask × FileSys)
  | [], s => some s
  | st :: sts, s =>
    match applyStep s st with
    | none => none
    | some s1 => runSteps sts s1

/-- The keydir invariant: the data file read by the store holds a well-formed
log, and for every `(K, O)` in the keydir the read at `O` yields a complete
`PUT` record of that log whose key is `K`, no record of the log with key `K`
lying at a higher offset. -/
def KeydirSound (db : Bitcask) (fs : FileSys) : Prop :=
  ∃ df es, db.dbFile = some df ∧ fs.inodes df.File.ino = logBytes es ∧
    (∀ e ∈ es, e.WellFormed) ∧
    ∀ K O, db.indexes K = some O →
      ∃ e, df.Read fs O = (some e, none) ∧ e.Mark = PUT ∧ e.Key = K ∧
        (O, e) ∈ withOffsets es 0 ∧ ∀ q ∈ withOffsets es 0, q.2.Key = K → q.1 ≤ O

/-- A `Merge` during which everything succeeds except the first write to the
merge file, which writes nothing. -/
def MergeOutcomes.writeFails : MergeOutcomes :=
  { mergeOpen := OpenOutcome.ok, writes := [WriteOutcome.short 0], reopen := OpenOutcome.ok }

/-- A directory without data file in which an earlier run has left a file
`bitcask.merge` with the given content. -/
def FileSys.withLeftoverMerge (content : List Byte) : FileSys :=
  { inodes := fun i => if i = 0 then content else [], nextIno := 1, dataIno := none,
    mergeIno := some 0 }

/-! ## Lemmas on the codec and on positional reads and writes -/

theorem toNat_ofNat_byte (n : Nat) : (UInt8.ofNat n).toNat = n % 256 := by
  simp [UInt8.ofNat, UInt8.toNat, Fin.ofNat, UInt8.size]

theorem leNat_putUint32 (n : Nat) (h : n < 2 ^ 32) : leNat (putUint32 n) = n := by
  simp only [putUint32, leNat, toNat_ofNat_byte]
  omega

theorem leNat_putUint16 (n : Nat) (h : n < 2 ^ 16) : leNat (putUint16 n) = n := by
  simp only [putUint16, leNat, toNat_ofNat_byte]
  omega

theorem Encode_eq (e : Entry) : e.Encode = .ok e.bytes := rfl

theorem header_length (e : Entry) : e.header.length = entryHeaderSize := rfl

theorem fit_length (n : Nat) (xs : List Byte) : (fit n xs).length = n := by
  simp [fit]; omega

theorem fit_self (xs : List Byte) : fit xs.length xs = xs := by
  simp [fit]

theorem bytes_length (e : Entry) : e.bytes.length = e.GetSize := by
  simp [Entry.bytes, header_length, fit_length, Entry.GetSize]; omega

theorem bytes_wf (e : Entry) (h : e.WellFormed) : e.bytes = e.header ++ e.Key ++ e.Value := by
  obtain ⟨h1, h2, -⟩ := h
  simp [Entry.bytes, h1, h2, fit_self]

theorem Decode_header (e : Entry) (hk : e.KeySize < 2 ^ 32) (hv : e.ValueSize < 2 ^ 32)
    (hm : e.Mark = PUT ∨ e.Mark = DEL) :
    Decode e.header =
      .ok { Key := [], Value := [], KeySize := e.KeySize, ValueSize := e.ValueSize, Mark := e.Mark } := by
  have h1 : leNat (e.header.take 4) = e.KeySize := by
    have : e.header.take 4 = putUint32 e.KeySize := rfl
    rw [this, leNat_putUint32 _ hk]
  have h2 : leNat ((e.header.drop 4).take 4) = e.ValueSize := by
    have : (e.header.drop 4).take 4 = putUint32 e.ValueSize := rfl
    rw [this, leNat_putUint32 _ hv]
  have h3 : leNat ((e.header.drop 8).take 2) = e.Mark := by
    have : (e.header.drop 8).take 2 = putUint16 e.Mark := rfl
    rw [this]
    apply leNat_putUint16
    rcases hm with h | h <;> rw [h] <;> decide
  simp only [Decode, h1, h2, h3]
  rw [if_pos hm]

/-- A positional read of the middle part of a file. -/
theorem ReadAt_mid (f : OsFile) (fs : FileSys) (a b c : List Byte)
    (hc : f.closed = false) (hcont : fs.inodes f.ino = a ++ b ++ c) (hb : b ≠ []) :
    f.ReadAt fs b.length a.length = .ok b := by
  have hpos : b.length ≠ 0 := by simpa using hb
  simp [OsFile.ReadAt, hc, hpos, hcont]

theorem Read_record (df : DatabaseFile) (fs : FileSys) (a c : List Byte) (e : Entry)
    (hc : df.File.closed = false) (hwf : e.WellFormed)
    (hcont : fs.inodes df.File.ino = a ++ e.bytes ++ c) :
    df.Read fs a.length = (some e, none) := by
  obtain ⟨h1, h2, h3, h4, h5⟩ := hwf
  have hb := bytes_wf e ⟨h1, h2, h3, h4, h5⟩
  rw [hb] at hcont
  have hhdr : df.File.ReadAt fs entryHeaderSize a.length = .ok e.header := by
    have := ReadAt_mid df.File fs a e.header (e.Key ++ e.Value ++ c) hc
      (by rw [hcont]; simp) (by simp [Entry.header, putUint32])
    rwa [header_length] at this
  have hkey : e.Key ≠ [] → df.File.ReadAt fs e.Key.length (a.length + entryHeaderSize) = .ok e.Key := by
    intro hne
    have := ReadAt_mid df.File fs (a ++ e.header) e.Key (e.Value ++ c) hc
      (by rw [hcont]; simp) hne
    simpa [header_length] using this
  have hval : e.Value ≠ [] →
      df.File.ReadAt fs e.Value.length (a.length + entryHeaderSize + e.Key.length) = .ok e.Value := by
    intro hne
    have := ReadAt_mid df.File fs (a ++ e.header ++ e.Key) e.Value c hc
      (by rw [hcont]; simp) hne
    simpa [header_length, Nat.add_assoc] using this
  have hdec := Decode_header e (by omega) (by omega) h5
  cases e with
  | mk Key Value KeySize ValueSize Mark =>
    simp only at h1 h2 h3 h4 h5 hkey hval hdec hhdr
    subst h1 h2
    simp only [DatabaseFile.Read, hhdr, hdec]
    by_cases hk0 : Key = [] <;> by_cases hv0 : Value = []
    · subst hk0 hv0; simp
    · subst hk0
      have hp : 0 < Value.length := List.length_pos.mpr hv0
      have := hval hv0
      simp at this
      simp [hp, this, Except.map]
    · subst hv0
      have hp : 0 < Key.length := List.length_pos.mpr hk0
      simp [hp, hkey hk0, Except.map]
    · have hp : 0 < Key.length := List.length_pos.mpr hk0
      have hp2 : 0 < Value.length := List.length_pos.mpr hv0
      simp [hp, hp2, hkey hk0, hval hv0, Except.map]

theorem newEntry_wf (key value : List Byte) (mark : Nat) (hk : key.length < 2 ^ 32)
    (hv : value.length < 2 ^ 32) (hm : mark = PUT ∨ mark = DEL) :
    (newEntry key value mark).WellFormed := by
  refine ⟨?_, ?_, hk, hv, hm⟩
  · exact Nat.mod_eq_of_lt hk
  · exact Nat.mod_eq_of_lt hv

theorem bytes_ne_nil (e : Entry) : e.bytes ≠ [] := by
  simp [Entry.bytes, Entry.header, putUint32]

theorem Write_eq (df : DatabaseFile) (fs : FileSys) (e : Entry) (w : WriteOutcome) :
    df.Write fs e w =
      (none, { df with Offset := df.Offset + e.GetSize },
        (df.File.WriteAt fs e.bytes df.Offset w).2) := rfl

theorem below_length (content : List Byte) (off : Nat) : (below content off).length = off := by
  simp [below]; omega

theorem below_self (content : List Byte) : below content content.length = content := by
  simp [below]

theorem writeBytes_eq (content : List Byte) (off : Nat) (b : List Byte) (hb : b ≠ []) :
    writeBytes content off b = below content off ++ b ++ content.drop (off + b.length) := by
  simp [writeBytes, hb, below]

theorem WriteAt_ok_inodes (f : OsFile) (fs : FileSys) (b : List Byte) (off : Nat)
    (hc : f.closed = false) :
    (f.WriteAt fs b off WriteOutcome.ok).2.inodes f.ino = writeBytes (fs.inodes f.ino) off b := by
  simp [OsFile.WriteAt, hc, FileSys.setContent]

/-- After a write that succeeds, the record is read back at the offset it was
written at. -/
theorem Read_after_Write (df : DatabaseFile) (fs : FileSys) (e : Entry)
    (hc : df.File.closed = false) (hwf : e.WellFormed) :
    (df.Write fs e WriteOutcome.ok).2.1.Read (df.Write fs e WriteOutcome.ok).2.2 df.Offset
      = (some e, none) := by
  rw [Write_eq]
  have h := Read_record { df with Offset := df.Offset + e.GetSize }
    (df.File.WriteAt fs e.bytes df.Offset WriteOutcome.ok).2
    (below (fs.inodes df.File.ino) df.Offset)
    ((fs.inodes df.File.ino).drop (df.Offset + e.bytes.length)) e hc hwf
    (by
      show (df.File.WriteAt fs e.bytes df.Offset WriteOutcome.ok).2.inodes df.File.ino = _
      rw [WriteAt_ok_inodes _ _ _ _ hc, writeBytes_eq _ _ _ (bytes_ne_nil e)])
  rw [below_length] at h
  exact h

theorem Put_eq (db : Bitcask) (fs : FileSys) (df : DatabaseFile) (key value : List Byte)
    (w : WriteOutcome) (hdf : db.dbFile = some df) (hk : key ≠ []) :
    db.Put fs key value w =
      some (none,
        { dbFile := some { df with Offset := df.Offset + (newEntry key value PUT).GetSize },
          indexes := db.indexes.set key df.Offset },
        (df.File.WriteAt fs (newEntry key value PUT).bytes df.Offset w).2) := by
  have hlen : key.length ≠ 0 := by simpa using hk
  simp only [Bitcask.Put, hlen, if_false, hdf, Write_eq]

theorem Del_eq (db : Bitcask) (fs : FileSys) (df : DatabaseFile) (key : List Byte) (o : Nat)
    (w : WriteOutcome) (hdf : db.dbFile = some df) (hk : key ≠ []) (hin : db.indexes key = some o) :
    db.Del fs key w =
      some (none,
        { dbFile := some { df with Offset := df.Offset + (newEntry key [] DEL).GetSize },
          indexes := db.indexes.delete key },
        (df.File.WriteAt fs (newEntry key [] DEL).bytes df.Offset w).2) := by
  have hlen : key.length ≠ 0 := by simpa using hk
  simp [Bitcask.Del, hlen, hdf, Write_eq, Bitcask.exist, hin]

theorem Del_absent (db : Bitcask) (fs : FileSys) (key : List Byte) (w : WriteOutcome)
    (hin : db.indexes key = none) : db.Del fs key w = some (none, db, fs) := by
  by_cases hlen : key.length = 0
  · simp [Bitcask.Del, hlen]
  · simp [Bitcask.Del, hlen, Bitcask.exist, hin]

theorem Get_absent (db : Bitcask) (fs : FileSys) (key : List Byte) (hk : key ≠ [])
    (hin : db.indexes key = none) : db.Get fs key = some ([], some Error.ErrKeyNotFound) := by
  have hlen : key.length ≠ 0 := by simpa using hk
  simp [Bitcask.Get, hlen, Bitcask.exist, hin]

theorem Get_present (db : Bitcask) (fs : FileSys) (df : DatabaseFile) (key : List Byte) (o : Nat)
    (e : Entry) (hdf : db.dbFile = some df) (hk : key ≠ []) (hin : db.indexes key = some o)
    (hread : df.Read fs o = (some e, none)) : db.Get fs key = some (e.Value, none) := by
  have hlen : key.length ≠ 0 := by simpa using hk
  simp [Bitcask.Get, hlen, Bitcask.exist, hin, hdf, hread]

theorem WriteAt_ok_append (f : OsFile) (fs : FileSys) (b : List Byte)
    (hc : f.closed = false) :
    (f.WriteAt fs b (fs.inodes f.ino).length WriteOutcome.ok).2.inodes f.ino
      = fs.inodes f.ino ++ b := by
  rw [WriteAt_ok_inodes _ _ _ _ hc]
  by_cases hb : b = []
  · simp [writeBytes, hb]
  · rw [writeBytes_eq _ _ _ hb, below_self]; simp

theorem logBytes_append (es1 es2 : List Entry) :
    logBytes (es1 ++ es2) = logBytes es1 ++ logBytes es2 := by
  induction es1 with
  | nil => rfl
  | cons e es ih => simp [logBytes, ih]

theorem loadLoop_stop (df : DatabaseFile) (fs : FileSys) (fuel off : Nat) (indexes : Keydir)
    (err : Error) (h : (df.Read fs off).2 = some err) :
    loadLoop df fs (fuel + 1) off indexes = some indexes := by
  unfold loadLoop
  rcases hr : df.Read fs off with ⟨e, er⟩
  rw [hr] at h
  simp only at h
  subst h
  simp

theorem loadLoop_step (df : DatabaseFile) (fs : FileSys) (fuel off : Nat) (indexes : Keydir)
    (e : Entry) (h : df.Read fs off = (some e, none)) :
    loadLoop df fs (fuel + 1) off indexes
      = loadLoop df fs fuel (off + e.GetSize) (indexes.apply e off) := by
  conv => lhs; unfold loadLoop
  simp only [h, Keydir.apply]

theorem loadLoop_log (df : DatabaseFile) (fs : FileSys) (hc : df.File.closed = false)
    (es : List Entry) :
    ∀ (a c : List Byte) (fuel : Nat) (indexes : Keydir),
      (∀ e ∈ es, e.WellFormed) → fs.inodes df.File.ino = a ++ logBytes es ++ c →
      loadLoop df fs (es.length + fuel) a.length indexes
        = loadLoop df fs fuel (a.length + (logBytes es).length) (replay es a.length indexes) := by
  induction es with
  | nil => intro a c fuel indexes _ _; simp [logBytes, replay]
  | cons e es ih =>
    intro a c fuel indexes hwf hcont
    have hread := Read_record df fs a (logBytes es ++ c) e hc (hwf e (by simp))
      (by rw [hcont]; simp [logBytes])
    have hfuel : (e :: es).length + fuel = (es.length + fuel) + 1 := by simp; omega
    rw [hfuel, loadLoop_step df fs _ _ _ e hread]
    have := ih (a ++ e.bytes) c fuel (indexes.apply e a.length)
      (fun x hx => hwf x (by simp [hx])) (by rw [hcont]; simp [logBytes])
    simp only [List.length_append, bytes_length] at this
    rw [this]
    simp [logBytes, replay, bytes_length, Nat.add_assoc]

theorem logBytes_length_ge (es : List Entry) : es.length ≤ (logBytes es).length := by
  induction es with
  | nil => simp [logBytes]
  | cons e es ih =>
    simp only [logBytes, List.length_append, List.length_cons, bytes_length, Entry.GetSize,
      entryHeaderSize]
    omega

theorem ReadAt_short (f : OsFile) (fs : FileSys) (n off : Nat) (hc : f.closed = false)
    (hn : 0 < n) (h : (fs.inodes f.ino).length < off + n) :
    f.ReadAt fs n off = .error Error.EOF := by
  have h1 : ¬ (off + n ≤ (fs.inodes f.ino).length) := by omega
  have h2 : n ≠ 0 := by omega
  simp [OsFile.ReadAt, hc, h1, h2]

theorem Read_eof (df : DatabaseFile) (fs : FileSys) (off : Nat) (hc : df.File.closed = false)
    (h : (fs.inodes df.File.ino).length < off + entryHeaderSize) :
    df.Read fs off = (none, some Error.EOF) := by
  have := ReadAt_short df.File fs entryHeaderSize off hc (by decide) h
  simp only [DatabaseFile.Read, this]
/-- A read whose header decodes but whose payload passes the end of the file
ends with `io.EOF`. -/
theorem Read_short_payload (df : DatabaseFile) (fs : FileSys) (off : Nat) (h : Entry)
    (hc : df.File.closed = false)
    (hle : off + entryHeaderSize ≤ (fs.inodes df.File.ino).length)
    (hdec : Decode ((fs.inodes df.File.ino).drop off |>.take entryHeaderSize) = .ok h)
    (hlen : (fs.inodes df.File.ino).length < off + entryHeaderSize + h.KeySize + h.ValueSize) :
    (df.Read fs off).2 = some Error.EOF := by
  have hhdr : df.File.ReadAt fs entryHeaderSize off
      = .ok ((fs.inodes df.File.ino).drop off |>.take entryHeaderSize) := by
    have h10 : entryHeaderSize ≠ 0 := by decide
    simp [OsFile.ReadAt, hc, h10, hle]
  simp only [DatabaseFile.Read, hhdr, hdec]
  by_cases hk : 0 < h.KeySize
  · by_cases hkl : (fs.inodes df.File.ino).length < off + entryHeaderSize + h.KeySize
    · have := ReadAt_short df.File fs h.KeySize (off + entryHeaderSize) hc hk hkl
      simp [hk, this, Except.map]
    · have hv : 0 < h.ValueSize := by omega
      have hkr : df.File.ReadAt fs h.KeySize (off + entryHeaderSize)
          = .ok (((fs.inodes df.File.ino).drop (off + entryHeaderSize)).take h.KeySize) := by
        have h1 : h.KeySize ≠ 0 := by omega
        have h2 : off + entryHeaderSize + h.KeySize ≤ (fs.inodes df.File.ino).length := by omega
        simp [OsFile.ReadAt, hc, h1, h2]
      have := ReadAt_short df.File fs h.ValueSize (off + entryHeaderSize + h.KeySize) hc hv hlen
      simp [hk, hkr, hv, this, Except.map]
  · have hk0 : h.KeySize = 0 := by omega
    have hv : 0 < h.ValueSize := by omega
    have := ReadAt_short df.File fs h.ValueSize (off + entryHeaderSize + h.KeySize) hc hv hlen
    simp [hk, hv, this, Except.map]

/-- A read at the start of a record that has been cut short ends with `io.EOF`. -/
theorem Read_truncated (df : DatabaseFile) (fs : FileSys) (a p q : List Byte) (e : Entry)
    (hc : df.File.closed = false) (hwf : e.WellFormed) (hpq : p ++ q = e.bytes) (hq : q ≠ [])
    (hcont : fs.inodes df.File.ino = a ++ p) :
    (df.Read fs a.length).2 = some Error.EOF := by
  have hqpos : 0 < q.length := List.length_pos.mpr hq
  have hlen : p.length + q.length = e.GetSize := by
    rw [← bytes_length, ← hpq, List.length_append]
  by_cases hp : p.length < entryHeaderSize
  · rw [Read_eof df fs a.length hc (by rw [hcont, List.length_append]; omega)]
  · have hp10 : entryHeaderSize ≤ p.length := by omega
    have htake : p.take entryHeaderSize = e.header := by
      have h1 : (p ++ q).take entryHeaderSize = p.take entryHeaderSize :=
        List.take_append_of_le_length hp10
      rw [← h1, hpq, Entry.bytes, List.append_assoc,
        List.take_append_of_le_length (by rw [header_length])]
      rw [← header_length e, List.take_length]
    have hslice : ((fs.inodes df.File.ino).drop a.length).take entryHeaderSize = e.header := by
      rw [hcont, List.drop_left, htake]
    obtain ⟨h1, h2, h3, h4, h5⟩ := hwf
    apply Read_short_payload df fs a.length
      { Key := [], Value := [], KeySize := e.KeySize, ValueSize := e.ValueSize, Mark := e.Mark } hc
    · rw [hcont, List.length_append]; omega
    · rw [hslice]
      exact Decode_header e (by omega) (by omega) h5
    · simp only [hcont, List.length_append]
      simp only [Entry.GetSize] at hlen
      omega
theorem logBytes_length (es : List Entry) :
    (logBytes es).length = (es.map Entry.GetSize).sum := by
  induction es with
  | nil => rfl
  | cons e es ih => simp [logBytes, bytes_length, ih]

theorem replay_append (es1 es2 : List Entry) :
    ∀ (off : Nat) (indexes : Keydir),
      replay (es1 ++ es2) off indexes
        = replay es2 (off + (logBytes es1).length) (replay es1 off indexes) := by
  induction es1 with
  | nil => intro off indexes; simp [replay, logBytes]
  | cons e es ih =>
    intro off indexes
    simp [replay, logBytes, ih, bytes_length, Nat.add_assoc]

theorem loadLoop_whole (df : DatabaseFile) (fs : FileSys) (hc : df.File.closed = false)
    (es : List Entry) (p : List Byte) (indexes : Keydir) (hwf : ∀ e ∈ es, e.WellFormed)
    (hcont : fs.inodes df.File.ino = logBytes es ++ p) (hp : TornTail p) :
    loadLoop df fs ((fs.inodes df.File.ino).length + 1) 0 indexes
      = some (replay es 0 indexes) := by
  obtain ⟨e, q, hewf, hpq, hq⟩ := hp
  have hge := logBytes_length_ge es
  have hlen : (fs.inodes df.File.ino).length + 1
      = es.length + (((logBytes es).length - es.length + p.length) + 1) := by
    rw [hcont, List.length_append]; omega
  rw [hlen]
  have h := loadLoop_log df fs hc es [] p (((logBytes es).length - es.length + p.length) + 1)
    indexes hwf (by simpa using hcont)
  simp only [List.length_nil, Nat.zero_add] at h
  rw [h]
  have hstop := Read_truncated df fs (logBytes es) p q e hc hewf hpq hq hcont
  exact loadLoop_stop df fs _ _ _ _ hstop

theorem TornTail_nil : TornTail [] :=
  ⟨newEntry [] [] PUT, (newEntry [] [] PUT).bytes, by decide, rfl, by decide⟩

theorem Open_log (fs : FileSys) (i : Nat) (es : List Entry) (p : List Byte)
    (hdata : fs.dataIno = some i) (hwf : ∀ e ∈ es, e.WellFormed)
    (hcont : fs.inodes i = logBytes es ++ p) (hp : TornTail p) :
    Open fs OpenOutcome.ok
      = some (.ok { dbFile := some (dataHandle i (logBytes es ++ p).length),
                    indexes := replay es 0 Keydir.empty }, fs) := by
  have hload := loadLoop_whole (dataHandle i (fs.inodes i).length) fs rfl es p
    Keydir.empty hwf hcont hp
  simp only [dataHandle] at hload
  simp only [Open, NewDataBaseFile, newInternal, osOpenFile, FileSys.lookup, hdata,
    Bitcask.loadIndexerFromFile, dataHandle]
  rw [hload, ← hcont]
  rfl

theorem Open_absent (fs : FileSys) (hdata : fs.dataIno = none) :
    Open fs OpenOutcome.ok
      = some (.ok { dbFile := some (dataHandle fs.nextIno 0), indexes := Keydir.empty },
          (osOpenFile fs FName.data).2) := by
  simp [Open, NewDataBaseFile, newInternal, osOpenFile, FileSys.lookup, hdata,
    Bitcask.loadIndexerFromFile, dataHandle, FileSys.setContent, FileSys.setName, loadLoop,
    DatabaseFile.Read, OsFile.ReadAt, entryHeaderSize]
theorem WriteAt_names (f : OsFile) (fs : FileSys) (b : List Byte) (off : Nat) (w : WriteOutcome) :
    (f.WriteAt fs b off w).2.dataIno = fs.dataIno ∧ (f.WriteAt fs b off w).2.mergeIno = fs.mergeIno ∧
      (f.WriteAt fs b off w).2.nextIno = fs.nextIno := by
  unfold OsFile.WriteAt
  split
  · exact ⟨rfl, rfl, rfl⟩
  · cases w <;> exact ⟨rfl, rfl, rfl⟩

theorem WriteAt_other (f : OsFile) (fs : FileSys) (b : List Byte) (off : Nat) (w : WriteOutcome)
    (j : Nat) (hj : j ≠ f.ino) : (f.WriteAt fs b off w).2.inodes j = fs.inodes j := by
  unfold OsFile.WriteAt
  split
  · rfl
  · cases w <;> simp [FileSys.setContent, hj]

theorem replay_snoc (es : List Entry) (e : Entry) (indexes : Keydir) :
    replay (es ++ [e]) 0 indexes = (replay es 0 indexes).apply e (logBytes es).length := by
  rw [replay_append]; simp [replay]

theorem Put_Inv (db : Bitcask) (fs : FileSys) (es : List Entry) (key value : List Byte)
    (hinv : Inv db fs es) (hk : key ≠ []) (hkl : key.length < 2 ^ 32)
    (hvl : value.length < 2 ^ 32) :
    ∃ db1 fs1, db.Put fs key value WriteOutcome.ok = some (none, db1, fs1) ∧
      Inv db1 fs1 (es ++ [newEntry key value PUT]) ∧ fs1.dataIno = fs.dataIno ∧
      fs1.mergeIno = fs.mergeIno ∧ fs1.nextIno = fs.nextIno := by
  obtain ⟨i, hdf, hdata, hcont, hwf, hidx⟩ := hinv
  have hn := WriteAt_names (dataHandle i (logBytes es).length).File fs
    (newEntry key value PUT).bytes (logBytes es).length WriteOutcome.ok
  refine ⟨_, _, Put_eq db fs _ key value _ hdf hk, ⟨i, ?_, ?_, ?_, ?_, ?_⟩, hn.1, hn.2.1, hn.2.2⟩
  · simp [dataHandle, logBytes_append, logBytes, bytes_length]
  · exact hn.1.trans hdata
  · have := WriteAt_ok_append (dataHandle i (logBytes es).length).File fs
      (newEntry key value PUT).bytes rfl
    simp only [dataHandle] at this ⊢
    rw [hcont] at this
    rw [this, logBytes_append]; simp [logBytes]
  · intro e he
    rcases List.mem_append.mp he with h | h
    · exact hwf e h
    · rw [List.mem_singleton.mp h]
      exact newEntry_wf key value PUT hkl hvl (Or.inl rfl)
  · rw [replay_snoc, ← hidx]
    simp [Keydir.apply, newEntry, PUT, DEL, dataHandle]

theorem Del_Inv (db : Bitcask) (fs : FileSys) (es : List Entry) (key : List Byte)
    (hinv : Inv db fs es) (hkl : key.length < 2 ^ 32) :
    ∃ db1 fs1 es1, db.Del fs key WriteOutcome.ok = some (none, db1, fs1) ∧
      Inv db1 fs1 (es ++ es1) ∧ fs1.dataIno = fs.dataIno ∧
      fs1.mergeIno = fs.mergeIno ∧ fs1.nextIno = fs.nextIno := by
  by_cases hk : key = []
  · subst hk
    exact ⟨db, fs, [], rfl, by simpa using hinv, rfl, rfl, rfl⟩
  cases hin : db.indexes key with
  | none =>
    exact ⟨db, fs, [], Del_absent db fs key _ hin, by simpa using hinv, rfl, rfl, rfl⟩
  | some o =>
    obtain ⟨i, hdf, hdata, hcont, hwf, hidx⟩ := hinv
    have hn := WriteAt_names (dataHandle i (logBytes es).length).File fs
      (newEntry key [] DEL).bytes (logBytes es).length WriteOutcome.ok
    refine ⟨_, _, [newEntry key [] DEL], Del_eq db fs _ key o _ hdf hk hin,
      ⟨i, ?_, ?_, ?_, ?_, ?_⟩, hn.1, hn.2.1, hn.2.2⟩
    · simp [dataHandle, logBytes_append, logBytes, bytes_length]
    · exact hn.1.trans hdata
    · have := WriteAt_ok_append (dataHandle i (logBytes es).length).File fs
        (newEntry key [] DEL).bytes rfl
      simp only [dataHandle] at this ⊢
      rw [hcont] at this
      rw [this, logBytes_append]; simp [logBytes]
    · intro e he
      rcases List.mem_append.mp he with h | h
      · exact hwf e h
      · rw [List.mem_singleton.mp h]
        exact newEntry_wf key [] DEL hkl (by decide) (Or.inr rfl)
    · rw [replay_snoc, ← hidx]
      simp only [Keydir.apply, newEntry, if_true]
      funext k1
      simp only [Keydir.delete, Keydir.set]
      split <;> rfl

theorem applyOp_Inv (db : Bitcask) (fs : FileSys) (es : List Entry) (op : Op)
    (hinv : Inv db fs es) (hfit : op.Fits) :
    ∃ db1 fs1 es1, applyOp (db, fs) op = some (db1, fs1) ∧ Inv db1 fs1 (es ++ es1) ∧
      fs1.dataIno = fs.dataIno ∧ fs1.mergeIno = fs.mergeIno ∧ fs1.nextIno = fs.nextIno := by
  cases op with
  | put key value =>
    by_cases hk : key = []
    · subst hk
      exact ⟨db, fs, [], rfl, by simpa using hinv, rfl, rfl, rfl⟩
    · obtain ⟨db1, fs1, h1, h2, h3⟩ := Put_Inv db fs es key value hinv hk hfit.1 hfit.2
      exact ⟨db1, fs1, _, by simp [applyOp, h1], h2, h3⟩
  | del key =>
    obtain ⟨db1, fs1, es1, h1, h2, h3⟩ := Del_Inv db fs es key hinv hfit
    exact ⟨db1, fs1, es1, by simp [applyOp, h1], h2, h3⟩

theorem runOps_Inv (ops : List Op) :
    ∀ (db : Bitcask) (fs : FileSys) (es : List Entry), Inv db fs es → (∀ op ∈ ops, op.Fits) →
      ∃ db1 fs1 es1, runOps ops (db, fs) = some (db1, fs1) ∧ Inv db1 fs1 (es ++ es1) ∧
        fs1.dataIno = fs.dataIno ∧ fs1.mergeIno = fs.mergeIno ∧ fs1.nextIno = fs.nextIno := by
  induction ops with
  | nil =>
    intro db fs es hinv _
    exact ⟨db, fs, [], rfl, by simpa using hinv, rfl, rfl, rfl⟩
  | cons op ops ih =>
    intro db fs es hinv hfit
    obtain ⟨db1, fs1, es1, h1, h2, h3, h4, h5⟩ :=
      applyOp_Inv db fs es op hinv (hfit op (by simp))
    obtain ⟨db2, fs2, es2, k1, k2, k3, k4, k5⟩ :=
      ih db1 fs1 (es ++ es1) h2 (fun o ho => hfit o (by simp [ho]))
    refine ⟨db2, fs2, es1 ++ es2, by simp [runOps, h1, k1], by simpa using k2, ?_, ?_, ?_⟩
    · rw [k3, h3]
    · rw [k4, h4]
    · rw [k5, h5]

/-- A store that satisfies `Inv` is exactly the store that `Open` returns on
its directory. -/
theorem Open_of_Inv (db : Bitcask) (fs : FileSys) (es : List Entry) (hinv : Inv db fs es) :
    Open fs OpenOutcome.ok = some (.ok db, fs) := by
  obtain ⟨i, hdf, hdata, hcont, hwf, hidx⟩ := hinv
  have := Open_log fs i es [] hdata hwf (by simpa using hcont) TornTail_nil
  rw [this]
  cases db with
  | mk dbFile indexes =>
    simp only at hdf hidx
    subst hdf hidx
    simp

theorem Inv_of_Open_log (fs : FileSys) (i : Nat) (es : List Entry)
    (hdata : fs.dataIno = some i) (hwf : ∀ e ∈ es, e.WellFormed)
    (hcont : fs.inodes i = logBytes es) :
    ∃ db, Open fs OpenOutcome.ok = some (.ok db, fs) ∧ Inv db fs es := by
  have := Open_log fs i es [] hdata hwf (by simpa using hcont) TornTail_nil
  refine ⟨_, this, ⟨i, ?_, hdata, hcont, hwf, rfl⟩⟩
  simp

theorem Inv_of_Open_absent (fs : FileSys) (hdata : fs.dataIno = none) :
    ∃ db fs1, Open fs OpenOutcome.ok = some (.ok db, fs1) ∧ Inv db fs1 [] ∧
      fs1.mergeIno = fs.mergeIno ∧ fs1.dataIno = some fs.nextIno ∧
      fs1.nextIno = fs.nextIno + 1 := by
  refine ⟨_, _, Open_absent fs hdata, ⟨fs.nextIno, rfl, ?_, ?_, by simp, rfl⟩, ?_, ?_, ?_⟩
  all_goals simp [osOpenFile, FileSys.lookup, hdata, FileSys.setName, FileSys.setContent, logBytes]
theorem loadIndexerFromFile_of_Inv (db : Bitcask) (fs : FileSys) (es : List Entry)
    (hinv : Inv db fs es) :
    Bitcask.loadIndexerFromFile { dbFile := db.dbFile, indexes := Keydir.empty } fs = some db := by
  obtain ⟨i, hdf, hdata, hcont, hwf, hidx⟩ := hinv
  have hload := loadLoop_whole (dataHandle i (logBytes es).length) fs rfl es []
    Keydir.empty hwf (by simpa [dataHandle] using hcont) TornTail_nil
  cases db with
  | mk dbFile indexes =>
    simp only at hdf hidx
    subst hdf hidx
    simp only [Bitcask.loadIndexerFromFile, hload]
    rfl

theorem mergeScan_stop (df : DatabaseFile) (fs : FileSys) (indexes : Keydir) (fuel off : Nat)
    (valid : List Entry) (h : (df.Read fs off).2 = some Error.EOF) :
    mergeScan df fs indexes (fuel + 1) off valid = some (.ok valid) := by
  unfold mergeScan
  rcases hr : df.Read fs off with ⟨e, er⟩
  rw [hr] at h
  simp only at h
  subst h
  simp

theorem mergeScan_step (df : DatabaseFile) (fs : FileSys) (indexes : Keydir) (fuel off : Nat)
    (valid : List Entry) (e : Entry) (h : df.Read fs off = (some e, none)) :
    mergeScan df fs indexes (fuel + 1) off valid
      = mergeScan df fs indexes fuel (off + e.GetSize)
          (if indexes e.Key = some off then valid ++ [e] else valid) := by
  conv => lhs; unfold mergeScan
  simp only [h]

theorem mergeScan_log (df : DatabaseFile) (fs : FileSys) (indexes : Keydir)
    (hc : df.File.closed = false) (es : List Entry) :
    ∀ (a c : List Byte) (fuel : Nat) (valid : List Entry),
      (∀ e ∈ es, e.WellFormed) → fs.inodes df.File.ino = a ++ logBytes es ++ c →
      mergeScan df fs indexes (es.length + fuel) a.length valid
        = mergeScan df fs indexes fuel (a.length + (logBytes es).length)
            (valid ++ (((withOffsets es a.length).filter
              (fun p => indexes p.2.Key = some p.1)).map Prod.snd)) := by
  induction es with
  | nil => intro a c fuel valid _ _; simp [logBytes, withOffsets]
  | cons e es ih =>
    intro a c fuel valid hwf hcont
    have hread := Read_record df fs a (logBytes es ++ c) e hc (hwf e (by simp))
      (by rw [hcont]; simp [logBytes])
    have hfuel : (e :: es).length + fuel = (es.length + fuel) + 1 := by simp; omega
    rw [hfuel, mergeScan_step df fs _ _ _ _ e hread]
    have := ih (a ++ e.bytes) c fuel (if indexes e.Key = some a.length then valid ++ [e] else valid)
      (fun x hx => hwf x (by simp [hx])) (by rw [hcont]; simp [logBytes])
    simp only [List.length_append, bytes_length] at this
    rw [this]
    by_cases hlive : indexes e.Key = some a.length
    · simp [logBytes, withOffsets, bytes_length, Nat.add_assoc, hlive, List.filter_cons]
    · simp [logBytes, withOffsets, bytes_length, Nat.add_assoc, hlive, List.filter_cons]

theorem mergeCollect_of_Inv (db : Bitcask) (fs : FileSys) (es : List Entry)
    (hinv : Inv db fs es) :
    db.mergeCollect fs = some (.ok ((liveRecords db.indexes es).map Prod.snd)) := by
  obtain ⟨i, hdf, hdata, hcont, hwf, hidx⟩ := hinv
  have hge := logBytes_length_ge es
  have hlen : (fs.inodes i).length + 1 = es.length + (((logBytes es).length - es.length) + 1) := by
    rw [hcont]; omega
  have h := mergeScan_log (dataHandle i (logBytes es).length) fs db.indexes rfl es [] []
    (((logBytes es).length - es.length) + 1) [] hwf (by simpa [dataHandle] using hcont)
  simp only [List.length_nil, Nat.zero_add, List.nil_append] at h
  simp only [Bitcask.mergeCollect, hdf]
  have hi : (dataHandle i (logBytes es).length).File.ino = i := rfl
  rw [hi, hlen, h]
  apply mergeScan_stop
  rw [Read_eof _ _ _ rfl (by rw [hi, hcont]; simp [entryHeaderSize])]
theorem mergeWrite_ok (f : OsFile) (hc : f.closed = false) (vs : List Entry) :
    ∀ (fs : FileSys) (indexes : Keydir),
      ∃ fs1, mergeWrite { File := f, Offset := (fs.inodes f.ino).length } fs indexes vs []
          = (none, { File := f, Offset := (fs.inodes f.ino).length + (logBytes vs).length }, fs1,
              repoint vs (fs.inodes f.ino).length indexes) ∧
        fs1.inodes f.ino = fs.inodes f.ino ++ logBytes vs ∧
        (∀ j, j ≠ f.ino → fs1.inodes j = fs.inodes j) ∧
        fs1.dataIno = fs.dataIno ∧ fs1.mergeIno = fs.mergeIno ∧ fs1.nextIno = fs.nextIno := by
  induction vs with
  | nil =>
    intro fs indexes
    exact ⟨fs, by simp [mergeWrite, logBytes, repoint], by simp [logBytes], fun _ _ => rfl,
      rfl, rfl, rfl⟩
  | cons e vs ih =>
    intro fs indexes
    have happ := WriteAt_ok_append f fs e.bytes hc
    have hnames := WriteAt_names f fs e.bytes (fs.inodes f.ino).length WriteOutcome.ok
    have hother := WriteAt_other f fs e.bytes (fs.inodes f.ino).length WriteOutcome.ok
    obtain ⟨fs1, h1, h2, h3, h4, h5, h6⟩ :=
      ih (f.WriteAt fs e.bytes (fs.inodes f.ino).length WriteOutcome.ok).2
        (indexes.set e.Key (fs.inodes f.ino).length)
    rw [happ] at h1 h2
    refine ⟨fs1, ?_, ?_, ?_, ?_, ?_, ?_⟩
    · simp only [mergeWrite, Write_eq, List.headD_nil, List.tail_nil, ne_eq, not_true_eq_false,
        if_false]
      simp only [List.length_append, bytes_length] at h1
      rw [h1]
      simp [logBytes, repoint, bytes_length, Nat.add_assoc]
    · rw [h2]; simp [logBytes]
    · intro j hj; rw [h3 j hj, hother j hj]
    · rw [h4, hnames.1]
    · rw [h5, hnames.2.1]
    · rw [h6, hnames.2.2]
theorem Merge_empty (db : Bitcask) (fs : FileSys) (os : MergeOutcomes) (hinv : Inv db fs []) :
    db.Merge fs os = some (none, db, fs) := by
  obtain ⟨i, hdf, -⟩ := hinv
  simp [Bitcask.Merge, hdf, dataHandle, logBytes]

theorem Merge_of_Inv (db : Bitcask) (fs : FileSys) (es : List Entry) (hinv : Inv db fs es)
    (hmerge : fs.mergeIno = none) (hne : es ≠ []) :
    ∃ fs1, db.Merge fs MergeOutcomes.allOk
        = some (none,
            { dbFile := some (dataHandle fs.nextIno
                (logBytes ((liveRecords db.indexes es).map Prod.snd)).length),
              indexes := repoint ((liveRecords db.indexes es).map Prod.snd) 0 db.indexes },
            fs1) ∧
      fs1.dataIno = some fs.nextIno ∧
      fs1.inodes fs.nextIno = logBytes ((liveRecords db.indexes es).map Prod.snd) ∧
      fs1.mergeIno = none ∧ fs1.nextIno = fs.nextIno + 1 := by
  have hcollect := mergeCollect_of_Inv db fs es hinv
  obtain ⟨i, hdf, hdata, hcont, hwf, hidx⟩ := hinv
  have hpos : (logBytes es).length ≠ 0 := by
    have := logBytes_length_ge es
    have : 0 < es.length := List.length_pos.mpr hne
    omega
  generalize (liveRecords db.indexes es).map Prod.snd = vs at hcollect ⊢
  have hopen : NewMergeDatabaseFile fs OpenOutcome.ok
      = (.ok { File := { ino := fs.nextIno, name := FName.merge, closed := false },
               Offset := ((osOpenFile fs FName.merge).2.inodes fs.nextIno).length },
          (osOpenFile fs FName.merge).2) := by
    simp [NewMergeDatabaseFile, newInternal, osOpenFile, FileSys.lookup, hmerge]
  have hnew : (osOpenFile fs FName.merge).2.inodes fs.nextIno = [] := by
    simp [osOpenFile, FileSys.lookup, hmerge, FileSys.setName, FileSys.setContent]
  obtain ⟨fs2, hw, hw1, hw2, hw3, hw4, hw5⟩ :=
    mergeWrite_ok { ino := fs.nextIno, name := FName.merge, closed := false } rfl vs
      (osOpenFile fs FName.merge).2 db.indexes
  simp only [hnew, List.length_nil, List.nil_append, Nat.zero_add] at hw hw1
  have hd2 : fs2.dataIno = some i := by
    rw [hw3]; simp [osOpenFile, FileSys.lookup, hmerge, FileSys.setName, FileSys.setContent, hdata]
  have hm2 : fs2.mergeIno = some fs.nextIno := by
    rw [hw4]; simp [osOpenFile, FileSys.lookup, hmerge, FileSys.setName, FileSys.setContent]
  have hn2 : fs2.nextIno = fs.nextIno + 1 := by
    rw [hw5]; simp [osOpenFile, FileSys.lookup, hmerge, FileSys.setName, FileSys.setContent]
  refine ⟨osRemove ((osRename (osRemove fs2 FName.data) FName.merge FName.data)) FName.merge,
    ?_, ?_, ?_, ?_, ?_⟩
  · simp only [Bitcask.Merge, hdf, dataHandle, hpos, if_false, hcollect, Bitcask.mergeSwap,
      hopen, hnew, List.length_nil, MergeOutcomes.allOk, hw]
    simp [OsFile.Close, NewDataBaseFile, newInternal, osOpenFile, osRename, osRemove,
      FileSys.lookup, FileSys.setName, hm2, hw1]
  · simp [osRename, osRemove, FileSys.lookup, FileSys.setName, hm2]
  · simp [osRename, osRemove, FileSys.lookup, FileSys.setName, hm2, hw1]
  · simp [osRename, osRemove, FileSys.lookup, FileSys.setName, hm2]
  · simp [osRename, osRemove, FileSys.lookup, FileSys.setName, hm2, hn2]
theorem GetSize_pos (e : Entry) : 0 < e.GetSize := by
  simp [Entry.GetSize, entryHeaderSize]

theorem withOffsets_ge (es : List Entry) :
    ∀ (off : Nat) (p : Nat × Entry), p ∈ withOffsets es off → off ≤ p.1 := by
  induction es with
  | nil => intro off p hp; simp [withOffsets] at hp
  | cons e es ih =>
    intro off p hp
    simp only [withOffsets, List.mem_cons] at hp
    rcases hp with h | h
    · rw [h]
    · have := ih _ p h; omega

theorem withOffsets_mem (es : List Entry) :
    ∀ (off : Nat) (p : Nat × Entry), p ∈ withOffsets es off → p.2 ∈ es := by
  induction es with
  | nil => intro off p hp; simp [withOffsets] at hp
  | cons e es ih =>
    intro off p hp
    simp only [withOffsets, List.mem_cons] at hp
    rcases hp with h | h
    · rw [h]; simp
    · exact List.mem_cons_of_mem _ (ih _ p h)

theorem withOffsets_split (es : List Entry) :
    ∀ (off o : Nat) (e : Entry), (o, e) ∈ withOffsets es off →
      ∃ es1 es2, es = es1 ++ e :: es2 ∧ o = off + (logBytes es1).length := by
  induction es with
  | nil => intro off o e hp; simp [withOffsets] at hp
  | cons x es ih =>
    intro off o e hp
    simp only [withOffsets, List.mem_cons, Prod.mk.injEq] at hp
    rcases hp with ⟨h1, h2⟩ | h
    · exact ⟨[], es, by simp [h2], by simp [logBytes, h1]⟩
    · obtain ⟨es1, es2, h1, h2⟩ := ih _ o e h
      exact ⟨x :: es1, es2, by simp [h1], by simp [logBytes, bytes_length, h2, Nat.add_assoc]⟩

theorem withOffsets_inj (es : List Entry) :
    ∀ (off o : Nat) (e1 e2 : Entry), (o, e1) ∈ withOffsets es off →
      (o, e2) ∈ withOffsets es off → e1 = e2 := by
  induction es with
  | nil => intro off o e1 e2 hp; simp [withOffsets] at hp
  | cons x es ih =>
    intro off o e1 e2 h1 h2
    have hx := GetSize_pos x
    simp only [withOffsets, List.mem_cons, Prod.mk.injEq] at h1 h2
    rcases h1 with ⟨a1, a2⟩ | a <;> rcases h2 with ⟨b1, b2⟩ | b
    · rw [a2, b2]
    · have := withOffsets_ge es _ _ b; simp only at this; omega
    · have := withOffsets_ge es _ _ a; simp only at this; omega
    · exact ih _ o e1 e2 a b

theorem withOffsets_nodup (es : List Entry) : ∀ (off : Nat), (withOffsets es off).Nodup := by
  induction es with
  | nil => intro off; simp [withOffsets]
  | cons x es ih =>
    intro off
    simp only [withOffsets, List.nodup_cons]
    refine ⟨?_, ih _⟩
    intro h
    have := withOffsets_ge es _ _ h
    have hx := GetSize_pos x
    simp only at this
    omega

/-- What the replay loop leaves under a key: the entry it started with when no
record bears the key, otherwise the offset of a record that bears the key, is
not a `DEL`, and has no record of that key after it. -/
theorem replay_sound (es : List Entry) :
    ∀ (off : Nat) (indexes : Keydir) (k : List Byte) (o : Nat),
      replay es off indexes k = some o →
      (indexes k = some o ∧ ∀ e ∈ es, e.Key ≠ k) ∨
      (∃ e, (o, e) ∈ withOffsets es off ∧ e.Key = k ∧ e.Mark ≠ DEL ∧
        ∀ p ∈ withOffsets es off, p.2.Key = k → p.1 ≤ o) := by
  induction es with
  | nil => intro off indexes k o h; left; exact ⟨h, by simp⟩
  | cons x es ih =>
    intro off indexes k o h
    simp only [replay] at h
    rcases ih _ _ k o h with ⟨h1, h2⟩ | ⟨e, h1, h2, h3, h4⟩
    · by_cases hxk : x.Key = k
      · right
        have hk : k = x.Key := hxk.symm
        by_cases hm : x.Mark = DEL
        · simp [Keydir.apply, hm, Keydir.delete, hk] at h1
        · simp only [Keydir.apply, hm, if_false, Keydir.set, hk, if_true, Option.some.injEq] at h1
          refine ⟨x, by simp [withOffsets, h1], hxk, hm, ?_⟩
          intro p hp hpk
          simp only [withOffsets, List.mem_cons] at hp
          rcases hp with hp | hp
          · rw [hp]; simp [h1]
          · exact absurd hpk (h2 p.2 (withOffsets_mem es _ p hp))
      · left
        have hk : ¬ k = x.Key := fun h => hxk h.symm
        refine ⟨?_, ?_⟩
        · by_cases hm : x.Mark = DEL
          · simpa [Keydir.apply, Keydir.set, Keydir.delete, hk, hm] using h1
          · simpa [Keydir.apply, Keydir.set, Keydir.delete, hk, hm] using h1
        · intro e he
          simp only [List.mem_cons] at he
          rcases he with he | he
          · rw [he]; exact hxk
          · exact h2 e he
    · right
      refine ⟨e, by simp [withOffsets, h1], h2, h3, ?_⟩
      intro p hp hpk
      simp only [withOffsets, List.mem_cons] at hp
      rcases hp with hp | hp
      · have := withOffsets_ge es _ _ h1
        rw [hp]
        simp only at this ⊢
        omega
      · exact h4 p hp hpk

theorem repoint_miss (vs : List Entry) :
    ∀ (off : Nat) (indexes : Keydir) (k : List Byte), (∀ x ∈ vs, x.Key ≠ k) →
      repoint vs off indexes k = indexes k := by
  induction vs with
  | nil => intro off indexes k _; rfl
  | cons x vs ih =>
    intro off indexes k h
    simp only [repoint]
    rw [ih _ _ k (fun y hy => h y (by simp [hy]))]
    have : ¬ k = x.Key := fun hk => h x (by simp) hk.symm
    simp [Keydir.set, this]

theorem repoint_hit (vs1 vs2 : List Entry) (e : Entry) :
    ∀ (off : Nat) (indexes : Keydir), (∀ x ∈ vs2, x.Key ≠ e.Key) →
      repoint (vs1 ++ e :: vs2) off indexes e.Key = some (off + (logBytes vs1).length) := by
  induction vs1 with
  | nil =>
    intro off indexes h
    simp only [List.nil_append, repoint, logBytes, List.length_nil, Nat.add_zero]
    rw [repoint_miss vs2 _ _ _ h]
    simp [Keydir.set]
  | cons x vs1 ih =>
    intro off indexes h
    have := ih (off + x.GetSize) (indexes.set x.Key off) h
    show repoint (vs1 ++ e :: vs2) (off + x.GetSize) (indexes.set x.Key off) e.Key = _
    rw [this]
    simp [logBytes, bytes_length, Nat.add_assoc]
theorem Open_HoldsLog (fs : FileSys) (es : List Entry) (h : fs.HoldsLog es) :
    ∃ db fs1, Open fs OpenOutcome.ok = some (.ok db, fs1) ∧ Inv db fs1 es ∧
      fs1.mergeIno = fs.mergeIno := by
  obtain ⟨hwf, ⟨h1, h2⟩ | ⟨i, h1, h2⟩⟩ := h
  · subst h2
    obtain ⟨db, fs1, k1, k2, k3, -⟩ := Inv_of_Open_absent fs h1
    exact ⟨db, fs1, k1, k2, k3⟩
  · obtain ⟨db, k1, k2⟩ := Inv_of_Open_log fs i es h1 hwf h2
    exact ⟨db, fs, k1, k2, rfl⟩

theorem live_sound (es : List Entry) (indexes : Keydir) (p : Nat × Entry)
    (hidx : indexes = replay es 0 Keydir.empty) (hp : p ∈ liveRecords indexes es) :
    p ∈ withOffsets es 0 ∧ indexes p.2.Key = some p.1 ∧ p.2.Mark ≠ DEL ∧
      ∀ q ∈ withOffsets es 0, q.2.Key = p.2.Key → q.1 ≤ p.1 := by
  simp only [liveRecords, List.mem_filter, decide_eq_true_eq] at hp
  obtain ⟨hp1, hp2⟩ := hp
  refine ⟨hp1, hp2, ?_⟩
  rw [hidx] at hp2
  rcases replay_sound es 0 Keydir.empty p.2.Key p.1 hp2 with ⟨h1, -⟩ | ⟨e, h1, h2, h3, h4⟩
  · simp [Keydir.empty] at h1
  · have : e = p.2 := withOffsets_inj es 0 p.1 e p.2 h1 hp1
    subst this
    exact ⟨h3, h4⟩

theorem live_complete (es : List Entry) (indexes : Keydir) (k : List Byte) (o : Nat)
    (hidx : indexes = replay es 0 Keydir.empty) (hk : indexes k = some o) :
    ∃ e, (o, e) ∈ liveRecords indexes es ∧ e.Key = k := by
  have hk2 := hk
  rw [hidx] at hk2
  rcases replay_sound es 0 Keydir.empty k o hk2 with ⟨h1, -⟩ | ⟨e, h1, h2, -⟩
  · simp [Keydir.empty] at h1
  · refine ⟨e, ?_, h2⟩
    simp only [liveRecords, List.mem_filter, decide_eq_true_eq]
    exact ⟨h1, by rw [h2]; exact hk⟩

theorem live_keys_nodup (es : List Entry) (indexes : Keydir) :
    (((liveRecords indexes es).map Prod.snd).map Entry.Key).Nodup := by
  rw [List.map_map]
  apply List.Nodup.map_on
  · intro p hp q hq hpq
    simp only [liveRecords, List.mem_filter, decide_eq_true_eq] at hp hq
    simp only [Function.comp] at hpq
    have h1 : p.1 = q.1 := by
      have := hp.2
      rw [hpq, hq.2] at this
      exact (Option.some.inj this).symm
    have h2 : p.2 = q.2 := by
      apply withOffsets_inj es 0 p.1 p.2 q.2 hp.1
      rw [h1]; exact hq.1
    exact Prod.ext h1 h2
  · exact List.Nodup.filter _ (withOffsets_nodup es 0)

theorem Read_in_log (df : DatabaseFile) (fs : FileSys) (es : List Entry) (o : Nat) (e : Entry)
    (hc : df.File.closed = false) (hwf : ∀ x ∈ es, x.WellFormed)
    (hcont : fs.inodes df.File.ino = logBytes es) (hp : (o, e) ∈ withOffsets es 0) :
    df.Read fs o = (some e, none) := by
  obtain ⟨es1, es2, h1, h2⟩ := withOffsets_split es 0 o e hp
  have := Read_record df fs (logBytes es1) (logBytes es2) e hc (hwf e (by simp [h1]))
    (by rw [hcont, h1, logBytes_append]; simp [logBytes])
  rw [h2, Nat.zero_add]
  exact this
/-- The function `Merge` on a store that satisfies `Inv`, with no merge file in the way and
every step succeeding: the new data file holds the live records and every key
is answered as before. -/
theorem Merge_spec_of_Inv (db : Bitcask) (fs : FileSys) (es : List Entry) (hinv : Inv db fs es)
    (hmerge : fs.mergeIno = none) :
    ∃ db2 fs2 i2, db.Merge fs MergeOutcomes.allOk = some (none, db2, fs2) ∧
      db2.dbFile = some (dataHandle i2
        (logBytes ((liveRecords db.indexes es).map Prod.snd)).length) ∧
      fs2.dataIno = some i2 ∧ fs2.mergeIno = none ∧
      fs2.inodes i2 = logBytes ((liveRecords db.indexes es).map Prod.snd) ∧
      (∀ key, db2.Get fs2 key = db.Get fs key) ∧
      (∀ key, (db2.indexes key).isSome = (db.indexes key).isSome) := by
  by_cases hne : es = []
  · subst hne
    obtain ⟨i, hdf, hdata, hcont, hwf, hidx⟩ := hinv
    exact ⟨db, fs, i, Merge_empty db fs _ ⟨i, hdf, hdata, hcont, hwf, hidx⟩,
      by simpa [liveRecords, withOffsets] using hdf, hdata, hmerge,
      by simpa [liveRecords, withOffsets] using hcont, fun _ => rfl, fun _ => rfl⟩
  obtain ⟨fs2, hm, h1, h2, h3, -⟩ := Merge_of_Inv db fs es hinv hmerge hne
  obtain ⟨i, hdf, hdata, hcont, hwf, hidx⟩ := hinv
  have hvswf : ∀ x ∈ (liveRecords db.indexes es).map Prod.snd, x.WellFormed := by
    intro x hx
    obtain ⟨p, hp, rfl⟩ := List.mem_map.mp hx
    exact hwf _ (withOffsets_mem es 0 p (live_sound es _ p hidx hp).1)
  have hkey : ∀ key,
      (repoint ((liveRecords db.indexes es).map Prod.snd) 0 db.indexes key = none ∧
        db.indexes key = none) ∨
      (∃ o o2 e, db.indexes key = some o ∧
        repoint ((liveRecords db.indexes es).map Prod.snd) 0 db.indexes key = some o2 ∧
        (dataHandle i (logBytes es).length).Read fs o = (some e, none) ∧
        (dataHandle fs.nextIno
          (logBytes ((liveRecords db.indexes es).map Prod.snd)).length).Read fs2 o2
          = (some e, none)) := by
    intro key
    cases hk : db.indexes key with
    | none =>
      left
      refine ⟨?_, rfl⟩
      rw [repoint_miss _ _ _ key, hk]
      intro x hx hxk
      obtain ⟨p, hp, rfl⟩ := List.mem_map.mp hx
      have := (live_sound es _ p hidx hp).2.1
      rw [hxk, hk] at this
      exact Option.noConfusion this
    | some o =>
      right
      obtain ⟨e, he, hek⟩ := live_complete es db.indexes key o hidx hk
      have hmem : e ∈ (liveRecords db.indexes es).map Prod.snd :=
        List.mem_map.mpr ⟨(o, e), he, rfl⟩
      obtain ⟨vs1, vs2, hsplit⟩ := List.append_of_mem hmem
      have hnd := live_keys_nodup es db.indexes
      rw [hsplit] at hnd hvswf
      rw [hsplit]
      have hvs2 : ∀ x ∈ vs2, x.Key ≠ e.Key := by
        intro x hx hxe
        simp only [List.map_append, List.map_cons] at hnd
        have := (List.nodup_cons.mp (List.Nodup.of_append_right hnd)).1
        exact this (by rw [← hxe]; exact List.mem_map_of_mem _ hx)
      refine ⟨o, (logBytes vs1).length, e, rfl, ?_, ?_, ?_⟩
      · have := repoint_hit vs1 vs2 e 0 db.indexes hvs2
        rw [hek, Nat.zero_add] at this
        exact this
      · exact Read_in_log _ fs es o e rfl hwf (by simpa [dataHandle] using hcont)
          (live_sound es _ _ hidx he).1
      · apply Read_record _ fs2 (logBytes vs1) (logBytes vs2) e rfl (hvswf e (by simp))
        simp only [dataHandle]
        rw [h2, hsplit, logBytes_append]
        simp [logBytes]
  refine ⟨_, fs2, fs.nextIno, hm, rfl, h1, h3, h2, ?_, ?_⟩
  · intro key
    by_cases hk0 : key = []
    · subst hk0; rfl
    rcases hkey key with ⟨k1, k2⟩ | ⟨o, o2, e, k1, k2, k3, k4⟩
    · rw [Get_absent _ _ key hk0 k1, Get_absent _ _ key hk0 k2]
    · rw [Get_present _ fs2 _ key o2 e rfl hk0 k2 k4, Get_present db fs _ key o e hdf hk0 k1 k3]
  · intro key
    rcases hkey key with ⟨k1, k2⟩ | ⟨o, o2, e, k1, k2, -⟩
    · simp only [k1, k2]
    · simp only [k1, k2, Option.isSome_some]
theorem reach_Inv (fs0 : FileSys) (es0 : List Entry) (ops : List Op)
    (hlog : fs0.HoldsLog es0) (hfit : ∀ op ∈ ops, op.Fits) :
    ∃ db0 fs1 db fs es, Open fs0 OpenOutcome.ok = some (.ok db0, fs1) ∧
      runOps ops (db0, fs1) = some (db, fs) ∧ Inv db fs es ∧ fs.mergeIno = fs0.mergeIno := by
  obtain ⟨db0, fs1, h1, h2, h3⟩ := Open_HoldsLog fs0 es0 hlog
  obtain ⟨db, fs, es1, k1, k2, -, k4, -⟩ := runOps_Inv ops db0 fs1 es0 h2 hfit
  exact ⟨db0, fs1, db, fs, _, h1, k1, k2, by rw [k4, h3]⟩

theorem ReadAt_ok_bound (f : OsFile) (fs : FileSys) (n off : Nat) (b : List Byte)
    (hn : n ≠ 0) (h : f.ReadAt fs n off = .ok b) : off + n ≤ (fs.inodes f.ino).length := by
  unfold OsFile.ReadAt at h
  by_cases hc : f.closed = true
  · simp [hc] at h
  · by_cases hle : off + n ≤ (fs.inodes f.ino).length
    · exact hle
    · simp [hc, hn, hle] at h

/-- A read that reports no error has read a whole header, and returns a record. -/
theorem Read_ok_bound (df : DatabaseFile) (fs : FileSys) (off : Nat) (r : Option Entry)
    (h : df.Read fs off = (r, none)) :
    (∃ e, r = some e) ∧ off + entryHeaderSize ≤ (fs.inodes df.File.ino).length := by
  unfold DatabaseFile.Read at h
  cases hbuf : df.File.ReadAt fs entryHeaderSize off with
  | error err => simp [hbuf] at h
  | ok buf =>
    have hb := ReadAt_ok_bound df.File fs entryHeaderSize off buf (by decide) hbuf
    refine ⟨?_, hb⟩
    cases hdec : Decode buf with
    | error err => simp [hbuf, hdec] at h
    | ok e0 =>
      simp only [hbuf, hdec] at h
      generalize (if e0.KeySize > 0 then
          (df.File.ReadAt fs e0.KeySize (off + entryHeaderSize)).map
            (fun key => { e0 with Key := key })
        else .ok e0) = kres at h
      cases kres with
      | error err => simp at h
      | ok e1 =>
        simp only at h
        generalize (if e1.ValueSize > 0 then
            (df.File.ReadAt fs e1.ValueSize (off + entryHeaderSize + e1.KeySize)).map
              (fun value => { e1 with Value := value })
          else .ok e1) = vres at h
        cases vres with
        | error err => simp at h
        | ok e2 =>
          simp only [Prod.mk.injEq, and_true] at h
          exact ⟨e2, h.symm⟩

/-- The fuel given to the replay loop never runs out, whatever the file holds. -/
theorem loadLoop_returns (df : DatabaseFile) (fs : FileSys) :
    ∀ (fuel off : Nat) (indexes : Keydir),
      (fs.inodes df.File.ino).length < off + entryHeaderSize + fuel →
      (loadLoop df fs (fuel + 1) off indexes).isSome = true := by
  intro fuel
  induction fuel with
  | zero =>
    intro off indexes hlt
    unfold loadLoop
    rcases hr : df.Read fs off with ⟨r, _ | err⟩
    · have := (Read_ok_bound df fs off r hr).2
      omega
    · simp
  | succ fuel ih =>
    intro off indexes hlt
    unfold loadLoop
    rcases hr : df.Read fs off with ⟨r, _ | err⟩
    · obtain ⟨⟨e, he⟩, hb⟩ := Read_ok_bound df fs off r hr
      subst he
      simp only
      apply ih
      have h10 : entryHeaderSize = 10 := rfl
      simp only [Entry.GetSize]
      omega
    · simp

/-- The function `Open` always returns: the replay loop ends within its fuel. -/
theorem Open_returns (fs : FileSys) (o : OpenOutcome) : (Open fs o).isSome = true := by
  unfold Open
  rcases hn : NewDataBaseFile fs o with ⟨_ | df, fs1⟩
  · simp
  · simp only [Bitcask.loadIndexerFromFile, Option.isSome_map']
    exact loadLoop_returns df fs1 _ 0 _ (by simp [entryHeaderSize])

/-- The fuel given to the scan of `Merge` never runs out. -/
theorem mergeScan_returns (df : DatabaseFile) (fs : FileSys) (indexes : Keydir) :
    ∀ (fuel off : Nat) (valid : List Entry),
      (fs.inodes df.File.ino).length < off + entryHeaderSize + fuel →
      (mergeScan df fs indexes (fuel + 1) off valid).isSome = true := by
  intro fuel
  induction fuel with
  | zero =>
    intro off valid hlt
    unfold mergeScan
    rcases hr : df.Read fs off with ⟨r, _ | err⟩
    · have := (Read_ok_bound df fs off r hr).2
      omega
    · simp only; split <;> rfl
  | succ fuel ih =>
    intro off valid hlt
    unfold mergeScan
    rcases hr : df.Read fs off with ⟨r, _ | err⟩
    · obtain ⟨⟨e, he⟩, hb⟩ := Read_ok_bound df fs off r hr
      subst he
      simp only
      apply ih
      have h10 : entryHeaderSize = 10 := rfl
      simp only [Entry.GetSize]
      omega
    · simp only; split <;> rfl

/-- On a store with a data file handle `Merge` always returns. -/
theorem Merge_returns (db : Bitcask) (fs : FileSys) (os : MergeOutcomes) (df : DatabaseFile)
    (hdf : db.dbFile = some df) : (db.Merge fs os).isSome = true := by
  have hscan := mergeScan_returns df fs db.indexes (fs.inodes df.File.ino).length 0 []
    (by simp [entryHeaderSize])
  simp only [Bitcask.Merge, hdf]
  split
  · rfl
  · simp only [Bitcask.mergeCollect, hdf]
    rcases hs : mergeScan df fs db.indexes ((fs.inodes df.File.ino).length + 1) 0 []
      with _ | (err | valid)
    · rw [hs] at hscan; simp at hscan
    · rfl
    · simp only [Bitcask.mergeSwap, hdf]
      rcases NewMergeDatabaseFile fs os.mergeOpen with ⟨_ | mf, fs1⟩
      · rfl
      · simp only
        split
        · rfl
        · rcases NewDataBaseFile _ os.reopen with ⟨_ | nf, fs5⟩ <;> rfl
/-! ## Lemmas on the replay of a log and on runs with `Merge` -/

theorem withOffsets_append (es1 es2 : List Entry) :
    ∀ (off : Nat), withOffsets (es1 ++ es2) off
      = withOffsets es1 off ++ withOffsets es2 (off + (logBytes es1).length) := by
  induction es1 with
  | nil => intro off; simp [withOffsets, logBytes]
  | cons e es ih =>
    intro off
    simp [withOffsets, logBytes, ih, bytes_length, Nat.add_assoc]

theorem withOffsets_of_mem (es : List Entry) :
    ∀ (off : Nat) (x : Entry), x ∈ es → ∃ o, (o, x) ∈ withOffsets es off := by
  induction es with
  | nil => intro off x hx; simp at hx
  | cons e es ih =>
    intro off x hx
    simp only [List.mem_cons] at hx
    rcases hx with h | h
    · exact ⟨off, by simp [withOffsets, h]⟩
    · obtain ⟨o, ho⟩ := ih (off + e.GetSize) x h
      exact ⟨o, by simp [withOffsets, ho]⟩

theorem replay_miss (es : List Entry) :
    ∀ (off : Nat) (indexes : Keydir) (k : List Byte), (∀ x ∈ es, x.Key ≠ k) →
      replay es off indexes k = indexes k := by
  induction es with
  | nil => intro off indexes k _; rfl
  | cons x es ih =>
    intro off indexes k h
    simp only [replay]
    rw [ih _ _ k (fun y hy => h y (by simp [hy]))]
    have hk : ¬ k = x.Key := fun hk => h x (by simp) hk.symm
    by_cases hm : x.Mark = DEL
    · simp [Keydir.apply, Keydir.set, Keydir.delete, hk, hm]
    · simp [Keydir.apply, Keydir.set, hk, hm]

theorem replay_hit (es1 es2 : List Entry) (e : Entry) (off : Nat) (indexes : Keydir)
    (h : ∀ x ∈ es2, x.Key ≠ e.Key) :
    replay (es1 ++ e :: es2) off indexes e.Key
      = if e.Mark = DEL then none else some (off + (logBytes es1).length) := by
  rw [replay_append]
  simp only [replay]
  rw [replay_miss es2 _ _ _ h]
  by_cases hm : e.Mark = DEL
  · simp [Keydir.apply, Keydir.delete, hm]
  · simp [Keydir.apply, Keydir.set, hm]

/-- A record after which no record of its key follows splits the log. -/
theorem last_split (es : List Entry) (o : Nat) (e : Entry)
    (hmem : (o, e) ∈ withOffsets es 0)
    (hlast : ∀ q ∈ withOffsets es 0, q.2.Key = e.Key → q.1 ≤ o) :
    ∃ es1 es2, es = es1 ++ e :: es2 ∧ o = (logBytes es1).length ∧
      ∀ x ∈ es2, x.Key ≠ e.Key := by
  obtain ⟨es1, es2, h1, h2⟩ := withOffsets_split es 0 o e hmem
  refine ⟨es1, es2, h1, by simpa using h2, ?_⟩
  intro x hx hxk
  obtain ⟨o2, ho2⟩ := withOffsets_of_mem es2 (0 + (logBytes es1).length + e.GetSize) x hx
  have hge := withOffsets_ge es2 _ _ ho2
  have hin : (o2, x) ∈ withOffsets es 0 := by
    rw [h1, withOffsets_append]
    simp only [withOffsets, List.mem_append, List.mem_cons]
    right; right; exact ho2
  have := hlast (o2, x) hin hxk
  have hpos := GetSize_pos e
  simp only at this hge
  omega

/-- The replay of a well-formed log maps a key to an offset exactly when the
last record of the key is a `PUT` at that offset. -/
theorem replay_iff (es : List Entry) (hwf : ∀ e ∈ es, e.WellFormed) (k : List Byte) (o : Nat) :
    replay es 0 Keydir.empty k = some o ↔ LastPutAt es k o := by
  constructor
  · intro h
    rcases replay_sound es 0 Keydir.empty k o h with ⟨h1, -⟩ | ⟨e, h1, h2, h3, h4⟩
    · simp [Keydir.empty] at h1
    · refine ⟨e, h1, h2, ?_, h4⟩
      rcases (hwf e (withOffsets_mem es 0 _ h1)).2.2.2.2 with hm | hm
      · exact hm
      · exact absurd hm h3
  · rintro ⟨e, h1, h2, h3, h4⟩
    subst h2
    obtain ⟨es1, es2, k1, k2, k3⟩ := last_split es o e h1 h4
    rw [k1, replay_hit es1 es2 e 0 _ k3, k2]
    simp [h3, PUT, DEL]

theorem replay_del (es : List Entry) (k : List Byte) (h : LastIsDel es k) :
    replay es 0 Keydir.empty k = none := by
  obtain ⟨o, e, h1, h2, h3, h4⟩ := h
  subst h2
  obtain ⟨es1, es2, k1, k2, k3⟩ := last_split es o e h1 h4
  rw [k1, replay_hit es1 es2 e 0 _ k3]
  simp [h3]

theorem loadLoop_mono (df : DatabaseFile) (fs : FileSys) (n : Nat) :
    ∀ (fuel off : Nat) (indexes r : Keydir),
      loadLoop df fs fuel off indexes = some r → loadLoop df fs (fuel + n) off indexes = some r := by
  intro fuel
  induction fuel with
  | zero => intro off indexes r h; simp [loadLoop] at h
  | succ fuel ih =>
    intro off indexes r h
    have hf : fuel + 1 + n = (fuel + n) + 1 := by omega
    rw [hf]
    rcases hr : df.Read fs off with ⟨e, _ | err⟩
    · cases e with
      | none => unfold loadLoop at h; simp [hr] at h
      | some e =>
        rw [loadLoop_step df fs _ _ _ e hr] at h ⊢
        exact ih _ _ _ h
    · rw [loadLoop_stop df fs _ _ _ err (by rw [hr])] at h ⊢
      exact h

theorem live_wf (es : List Entry) (indexes : Keydir) (hwf : ∀ e ∈ es, e.WellFormed) :
    ∀ x ∈ (liveRecords indexes es).map Prod.snd, x.WellFormed := by
  intro x hx
  obtain ⟨p, hp, rfl⟩ := List.mem_map.mp hx
  simp only [liveRecords, List.mem_filter] at hp
  exact hwf _ (withOffsets_mem es 0 p hp.1)

/-- The keydir that `Merge` leaves is the replay of the live records. -/
theorem repoint_live (es : List Entry) (indexes : Keydir)
    (hidx : indexes = replay es 0 Keydir.empty) :
    repoint ((liveRecords indexes es).map Prod.snd) 0 indexes
      = replay ((liveRecords indexes es).map Prod.snd) 0 Keydir.empty := by
  funext k
  cases hk : indexes k with
  | none =>
    have hmiss : ∀ x ∈ (liveRecords indexes es).map Prod.snd, x.Key ≠ k := by
      intro x hx hxk
      obtain ⟨p, hp, rfl⟩ := List.mem_map.mp hx
      have := (live_sound es _ p hidx hp).2.1
      rw [hxk, hk] at this
      exact Option.noConfusion this
    rw [repoint_miss _ _ _ k hmiss, replay_miss _ _ _ k hmiss, hk]
    rfl
  | some o =>
    obtain ⟨e, he, hek⟩ := live_complete es indexes k o hidx hk
    have hmem : e ∈ (liveRecords indexes es).map Prod.snd :=
      List.mem_map.mpr ⟨(o, e), he, rfl⟩
    have hnotdel : e.Mark ≠ DEL := (live_sound es _ _ hidx he).2.2.1
    obtain ⟨vs1, vs2, hsplit⟩ := List.append_of_mem hmem
    have hnd := live_keys_nodup es indexes
    rw [hsplit] at hnd ⊢
    have hvs2 : ∀ x ∈ vs2, x.Key ≠ e.Key := by
      intro x hx hxe
      simp only [List.map_append, List.map_cons] at hnd
      have := (List.nodup_cons.mp (List.Nodup.of_append_right hnd)).1
      exact this (by rw [← hxe]; exact List.mem_map_of_mem _ hx)
    rw [← hek, repoint_hit vs1 vs2 e 0 indexes hvs2, replay_hit vs1 vs2 e 0 _ hvs2]
    simp [hnotdel]

theorem Merge_Inv (db : Bitcask) (fs : FileSys) (es : List Entry) (hinv : Inv db fs es)
    (hmerge : fs.mergeIno = none) :
    ∃ db2 fs2 es2, db.Merge fs MergeOutcomes.allOk = some (none, db2, fs2) ∧
      Inv db2 fs2 es2 ∧ fs2.mergeIno = none := by
  obtain ⟨db2, fs2, i2, h1, h2, h3, h4, h5, -, -⟩ := Merge_spec_of_Inv db fs es hinv hmerge
  by_cases hne : es = []
  · subst hne
    rw [Merge_empty db fs _ hinv] at h1
    exact ⟨db, fs, [], Merge_empty db fs _ hinv, hinv, hmerge⟩
  · obtain ⟨fs3, k1, -⟩ := Merge_of_Inv db fs es hinv hmerge hne
    rw [k1] at h1
    obtain ⟨i, hdf, hdata, hcont, hwf, hidx⟩ := hinv
    refine ⟨db2, fs2, (liveRecords db.indexes es).map Prod.snd, ?_, ?_, h4⟩
    · rw [k1, h1]
    · refine ⟨i2, h2, h3, h5, live_wf es _ hwf, ?_⟩
      have hdb : db2.indexes = repoint ((liveRecords db.indexes es).map Prod.snd) 0 db.indexes := by
        have := (Prod.mk.inj (Prod.mk.inj (Option.some.inj h1)).2).1
        rw [← this]
      rw [hdb]
      exact repoint_live es db.indexes hidx

theorem applyStep_Inv (db : Bitcask) (fs : FileSys) (es : List Entry) (st : Step)
    (hinv : Inv db fs es) (hmerge : fs.mergeIno = none) (hfit : st.Fits) :
    ∃ db1 fs1 es1, applyStep (db, fs) st = some (db1, fs1) ∧ Inv db1 fs1 es1 ∧
      fs1.mergeIno = none := by
  cases st with
  | put key value =>
    obtain ⟨db1, fs1, es1, h1, h2, -, h4, -⟩ :=
      applyOp_Inv db fs es (Op.put key value) hinv hfit
    exact ⟨db1, fs1, _, h1, h2, by rw [h4, hmerge]⟩
  | del key =>
    obtain ⟨db1, fs1, es1, h1, h2, -, h4, -⟩ := applyOp_Inv db fs es (Op.del key) hinv hfit
    exact ⟨db1, fs1, _, h1, h2, by rw [h4, hmerge]⟩
  | merge =>
    obtain ⟨db2, fs2, es2, h1, h2, h3⟩ := Merge_Inv db fs es hinv hmerge
    exact ⟨db2, fs2, es2, by simp [applyStep, h1], h2, h3⟩

theorem runSteps_Inv (sts : List Step) :
    ∀ (db : Bitcask) (fs : FileSys) (es : List Entry), Inv db fs es → fs.mergeIno = none →
      (∀ st ∈ sts, st.Fits) →
      ∃ db1 fs1 es1, runSteps sts (db, fs) = some (db1, fs1) ∧ Inv db1 fs1 es1 ∧
        fs1.mergeIno = none := by
  induction sts with
  | nil =>
    intro db fs es hinv hmerge _
    exact ⟨db, fs, es, rfl, hinv, hmerge⟩
  | cons st sts ih =>
    intro db fs es hinv hmerge hfit
    obtain ⟨db1, fs1, es1, h1, h2, h3⟩ :=
      applyStep_Inv db fs es st hinv hmerge (hfit st (by simp))
    obtain ⟨db2, fs2, es2, k1, k2, k3⟩ :=
      ih db1 fs1 es1 h2 h3 (fun o ho => hfit o (by simp [ho]))
    exact ⟨db2, fs2, es2, by simp [runSteps, h1, k1], k2, k3⟩

theorem reach_steps_Inv (fs0 : FileSys) (es0 : List Entry) (sts : List Step)
    (hlog : fs0.HoldsLog es0) (hmerge : fs0.mergeIno = none) (hfit : ∀ st ∈ sts, st.Fits) :
    ∃ db0 fs1 db fs es, Open fs0 OpenOutcome.ok = some (.ok db0, fs1) ∧ Inv db0 fs1 es0 ∧
      runSteps sts (db0, fs1) = some (db, fs) ∧ Inv db fs es := by
  obtain ⟨db0, fs1, h1, h2, h3⟩ := Open_HoldsLog fs0 es0 hlog
  obtain ⟨db, fs, es, k1, k2, -⟩ := runSteps_Inv sts db0 fs1 es0 h2 (by rw [h3, hmerge]) hfit
  exact ⟨db0, fs1, db, fs, es, h1, h2, k1, k2⟩

theorem KeydirSound_of_Inv (db : Bitcask) (fs : FileSys) (es : List Entry)
    (hinv : Inv db fs es) : KeydirSound db fs := by
  obtain ⟨i, hdf, hdata, hcont, hwf, hidx⟩ := hinv
  refine ⟨_, es, hdf, by simpa [dataHandle] using hcont, hwf, ?_⟩
  intro K O hK
  rw [hidx] at hK
  obtain ⟨e, h1, h2, h3, h4⟩ := (replay_iff es hwf K O).mp hK
  exact ⟨e, Read_in_log _ fs es O e rfl hwf (by simpa [dataHandle] using hcont) h1,
    h3, h2, h1, h4⟩

theorem Get_of_Inv (db : Bitcask) (fs : FileSys) (es : List Entry) (key : List Byte)
    (hinv : Inv db fs es) (hk : key ≠ []) :
    (db.indexes key = none ∧ db.Get fs key = some ([], some Error.ErrKeyNotFound)) ∨
    (∃ o e, db.indexes key = some o ∧ (o, e) ∈ withOffsets es 0 ∧
      db.Get fs key = some (e.Value, none)) := by
  obtain ⟨i, hdf, hdata, hcont, hwf, hidx⟩ := hinv
  cases hin : db.indexes key with
  | none => exact Or.inl ⟨rfl, Get_absent db fs key hk hin⟩
  | some o =>
    right
    have h := hin
    rw [hidx] at h
    obtain ⟨e, h1, -⟩ := (replay_iff es hwf key o).mp h
    exact ⟨o, e, rfl, h1, Get_present db fs _ key o e hdf hk hin
      (Read_in_log _ fs es o e rfl hwf (by simpa [dataHandle] using hcont) h1)⟩

/-- On a store that satisfies `Inv`, a later state whose log extends the
present one and whose keydir agrees on a key answers `Get` of that key alike. -/
theorem Get_extend (db db1 : Bitcask) (fs fs1 : FileSys) (es es1 : List Entry)
    (key : List Byte) (hinv : Inv db fs es) (hinv1 : Inv db1 fs1 (es ++ es1))
    (hk : key ≠ []) (hsame : db1.indexes key = db.indexes key) :
    db1.Get fs1 key = db.Get fs key := by
  rcases Get_of_Inv db fs es key hinv hk with ⟨h1, h2⟩ | ⟨o, e, h1, h2, h3⟩
  · rw [h2, Get_absent db1 fs1 key hk (by rw [hsame, h1])]
  · rcases Get_of_Inv db1 fs1 (es ++ es1) key hinv1 hk with ⟨k1, -⟩ | ⟨o1, e1, k1, k2, k3⟩
    · rw [hsame, h1] at k1; exact Option.noConfusion k1
    · rw [hsame, h1] at k1
      have ho : o = o1 := Option.some.inj k1
      subst ho
      have hmem : (o, e) ∈ withOffsets (es ++ es1) 0 := by
        rw [withOffsets_append]; exact List.mem_append_left _ h2
      have he : e = e1 := withOffsets_inj (es ++ es1) 0 o e e1 hmem k2
      rw [h3, k3, he]

/-- A keydir entry at which the read reports an error refutes the keydir
invariant. -/
theorem not_KeydirSound_of_Read_error (db : Bitcask) (fs : FileSys) (df : DatabaseFile)
    (K : List Byte) (O : Nat) (err : Error) (hdf : db.dbFile = some df)
    (hidx : db.indexes K = some O) (hread : (df.Read fs O).2 = some err) :
    ¬ KeydirSound db fs := by
  rintro ⟨df1, es, hdf1, -, -, hk⟩
  rw [hdf] at hdf1
  cases hdf1
  obtain ⟨e, hr, -⟩ := hk K O hidx
  rw [hr] at hread
  exact Option.noConfusion hread

/-! ## The contract of `Put`, `Get` and `Del` -/

/-- C1: after `Put(K, V)` on an open store, with a non-empty key and a write
that succeeds, the next `Get(K)` returns exactly `V` and a nil error, whatever
the keydir held for `K` before (key and value within the 32-bit size fields of
a record). -/
theorem Put_then_Get (db : Bitcask) (fs : FileSys) (df : DatabaseFile) (key value : List Byte)
    (hdf : db.dbFile = some df) (hopen : df.File.closed = false) (hk : key ≠ [])
    (hkl : key.length < 2 ^ 32) (hvl : value.length < 2 ^ 32) :
    ∃ db1 fs1, db.Put fs key value WriteOutcome.ok = some (none, db1, fs1) ∧
      db1.Get fs1 key = some (value, none) := by
  have hwf := newEntry_wf key value PUT hkl hvl (Or.inl rfl)
  have hread := Read_after_Write df fs (newEntry key value PUT) hopen hwf
  rw [Write_eq] at hread
  refine ⟨_, _, Put_eq db fs df key value _ hdf hk, ?_⟩
  exact Get_present _ _ _ key df.Offset (newEntry key value PUT) rfl hk
    (by simp [Keydir.set]) hread

theorem Put_then_Get_witness :
    ∃ db1 fs1, freshDb.Put freshFs [1] [2, 3] WriteOutcome.ok = some (none, db1, fs1) ∧
      db1.Get fs1 [1] = some ([2, 3], none) :=
  Put_then_Get freshDb freshFs freshFile [1] [2, 3] rfl rfl (by decide) (by decide) (by decide)

/-- C2, as the code behaves: on a fresh store `Get` of an absent non-empty key
hands back `ErrKeyNotFound`, not a nil error. -/
theorem Get_absent_key_surfaces_error :
    Open FileSys.init OpenOutcome.ok = some (.ok freshDb, freshFs) ∧
      freshDb.indexes [1] = none ∧
      freshDb.Get freshFs [1] = some ([], some Error.ErrKeyNotFound) ∧
      freshDb.Get freshFs [1] ≠ some ([], none) := by
  refine ⟨rfl, rfl, by decide, by decide⟩

/-- C2, amended: for every store state and every non-empty key absent from the
keydir, `Get` returns an empty value together with the error `ErrKeyNotFound`. -/
theorem Get_absent_key (db : Bitcask) (fs : FileSys) (key : List Byte) (hk : key ≠ [])
    (hin : db.indexes key = none) :
    db.Get fs key = some ([], some Error.ErrKeyNotFound) :=
  Get_absent db fs key hk hin

theorem Get_absent_key_witness :
    freshDb.Get freshFs [7] = some ([], some Error.ErrKeyNotFound) :=
  Get_absent_key freshDb freshFs [7] (by decide) rfl

/-- C3: on an open store, `Put(K, V)` followed by `Del(K)` (non-empty key,
writes succeeding) leaves `K` absent from the keydir, moves the cursor by the
two records, appends to a log that ends at the cursor exactly the encoded PUT
record and the encoded DEL record with an empty value, and `Get(K)` then
returns an empty value. -/
theorem Put_then_Del (db : Bitcask) (fs : FileSys) (df : DatabaseFile) (key value : List Byte)
    (hdf : db.dbFile = some df) (hopen : df.File.closed = false) (hk : key ≠ []) :
    ∃ db1 fs1 db2 fs2 df2 p d,
      db.Put fs key value WriteOutcome.ok = some (none, db1, fs1) ∧
      db1.Del fs1 key WriteOutcome.ok = some (none, db2, fs2) ∧
      db2.indexes key = none ∧
      (newEntry key value PUT).Encode = .ok p ∧
      (newEntry key [] DEL).Encode = .ok d ∧ (newEntry key [] DEL).Value = [] ∧
      db2.dbFile = some df2 ∧ df2.File = df.File ∧
      df2.Offset = df.Offset + p.length + d.length ∧
      (df.Offset = (fs.inodes df.File.ino).length →
        fs2.inodes df.File.ino = fs.inodes df.File.ino ++ p ++ d) ∧
      db2.Get fs2 key = some ([], some Error.ErrKeyNotFound) := by
  refine ⟨_, _, _, _, _, _, _, Put_eq db fs df key value _ hdf hk,
    Del_eq _ _ _ key df.Offset _ rfl hk (by simp [Keydir.set]), by simp [Keydir.delete],
    Encode_eq _, Encode_eq _, rfl, rfl, rfl, ?_, ?_, ?_⟩
  · simp [bytes_length, Nat.add_assoc]
  · intro hoff
    simp only []
    rw [hoff]
    have h1 := WriteAt_ok_append df.File fs (newEntry key value PUT).bytes hopen
    have h2 := WriteAt_ok_append df.File
      (df.File.WriteAt fs (newEntry key value PUT).bytes (fs.inodes df.File.ino).length
        WriteOutcome.ok).2 (newEntry key [] DEL).bytes hopen
    rw [h1] at h2
    rw [← h2]
    simp [bytes_length]
  · exact Get_absent _ _ key hk (by simp [Keydir.delete])

theorem Put_then_Del_witness :
    ∃ db1 fs1 db2 fs2 df2 p d,
      freshDb.Put freshFs [1] [2, 3] WriteOutcome.ok = some (none, db1, fs1) ∧
      db1.Del fs1 [1] WriteOutcome.ok = some (none, db2, fs2) ∧
      db2.indexes [1] = none ∧
      (newEntry [1] [2, 3] PUT).Encode = .ok p ∧
      (newEntry [1] [] DEL).Encode = .ok d ∧ (newEntry [1] [] DEL).Value = [] ∧
      db2.dbFile = some df2 ∧ df2.File = freshFile.File ∧
      df2.Offset = freshFile.Offset + p.length + d.length ∧
      (freshFile.Offset = (freshFs.inodes freshFile.File.ino).length →
        fs2.inodes freshFile.File.ino = freshFs.inodes freshFile.File.ino ++ p ++ d) ∧
      db2.Get fs2 [1] = some ([], some Error.ErrKeyNotFound) :=
  Put_then_Del freshDb freshFs freshFile [1] [2, 3] rfl rfl (by decide)

/-- C4: `Del` of a non-empty key absent from the keydir returns no error and
leaves the store and the directory (log bytes, cursor, keydir) as they were;
and from any open store `Del(K); Del(K)` returns no error both times, the
second call changing nothing, whatever the operating system does with the
write. -/
theorem Del_idempotent (db : Bitcask) (fs : FileSys) (key : List Byte) (w1 w2 : WriteOutcome)
    (hk : key ≠ []) :
    (db.indexes key = none → db.Del fs key w1 = some (none, db, fs)) ∧
    (∀ df, db.dbFile = some df →
      ∃ db1 fs1, db.Del fs key w1 = some (none, db1, fs1) ∧
        db1.Del fs1 key w2 = some (none, db1, fs1)) := by
  refine ⟨Del_absent db fs key w1, ?_⟩
  intro df hdf
  cases hin : db.indexes key with
  | none =>
    exact ⟨db, fs, Del_absent db fs key w1 hin, Del_absent db fs key w2 hin⟩
  | some o =>
    refine ⟨_, _, Del_eq db fs df key o w1 hdf hk hin, ?_⟩
    exact Del_absent _ _ key w2 (by simp [Keydir.delete])

theorem Del_idempotent_witness :
    (freshDb.indexes [1] = none →
      freshDb.Del freshFs [1] WriteOutcome.ok = some (none, freshDb, freshFs)) ∧
    (∀ df, freshDb.dbFile = some df →
      ∃ db1 fs1, freshDb.Del freshFs [1] WriteOutcome.ok = some (none, db1, fs1) ∧
        db1.Del fs1 [1] WriteOutcome.ok = some (none, db1, fs1)) :=
  Del_idempotent freshDb freshFs [1] WriteOutcome.ok WriteOutcome.ok (by decide)

/-- C5: with an empty key `Put`, `Del` and `Get` return no error, `Get`
returns an empty value, and store and directory (log bytes, cursor, keydir)
are unchanged. -/
theorem empty_key_inert (db : Bitcask) (fs : FileSys) (value : List Byte) (w : WriteOutcome) :
    db.Put fs [] value w = some (none, db, fs) ∧ db.Del fs [] w = some (none, db, fs) ∧
      db.Get fs [] = some ([], none) :=
  ⟨rfl, rfl, rfl⟩
/-! ## Replay -/

/-- C6: a store opened on an empty log (data file absent or empty) runs any
finite sequence of `Put` and `Del` requests whose keys and values fit the size
fields, the writes succeeding. Then `loadIndexerFromFile`, started on the
handle of the store with an empty keydir, yields exactly the keydir held in
memory; `Close` returns nil; and `Open` on the directory returns a store with
that same keydir on which `Get` answers every key as before. -/
theorem replay_fidelity (fs0 : FileSys) (ops : List Op)
    (hempty : fs0.dataIno = none ∨ ∃ i, fs0.dataIno = some i ∧ fs0.inodes i = [])
    (hfit : ∀ op ∈ ops, op.Fits) :
    ∃ db0 fs1 db fs db2,
      Open fs0 OpenOutcome.ok = some (.ok db0, fs1) ∧
      runOps ops (db0, fs1) = some (db, fs) ∧
      Bitcask.loadIndexerFromFile { dbFile := db.dbFile, indexes := Keydir.empty } fs
        = some { dbFile := db.dbFile, indexes := db.indexes } ∧
      db.Close.1 = none ∧
      Open fs OpenOutcome.ok = some (.ok db2, fs) ∧
      db2.indexes = db.indexes ∧ ∀ key, db2.Get fs key = db.Get fs key := by
  have hstart : ∃ db0 fs1, Open fs0 OpenOutcome.ok = some (.ok db0, fs1) ∧ Inv db0 fs1 [] := by
    rcases hempty with h | ⟨i, h1, h2⟩
    · obtain ⟨db0, fs1, h1, h2, -⟩ := Inv_of_Open_absent fs0 h
      exact ⟨db0, fs1, h1, h2⟩
    · obtain ⟨db0, h3, h4⟩ := Inv_of_Open_log fs0 i [] h1 (by simp) (by simpa [logBytes] using h2)
      exact ⟨db0, fs0, h3, h4⟩
  obtain ⟨db0, fs1, hopen, hinv0⟩ := hstart
  obtain ⟨db, fs, es, hrun, hinv, -⟩ := runOps_Inv ops db0 fs1 [] hinv0 hfit
  refine ⟨db0, fs1, db, fs, db, hopen, hrun, loadIndexerFromFile_of_Inv db fs _ hinv, ?_,
    Open_of_Inv db fs _ hinv, rfl, fun _ => rfl⟩
  obtain ⟨i, hdf, -⟩ := hinv
  simp [Bitcask.Close, hdf, dataHandle, OsFile.Close]

theorem replay_fidelity_witness :
    ∃ db0 fs1 db fs db2,
      Open FileSys.init OpenOutcome.ok = some (.ok db0, fs1) ∧
      runOps [Op.put [1] [2], Op.put [3] [4], Op.del [1]] (db0, fs1) = some (db, fs) ∧
      Bitcask.loadIndexerFromFile { dbFile := db.dbFile, indexes := Keydir.empty } fs
        = some { dbFile := db.dbFile, indexes := db.indexes } ∧
      db.Close.1 = none ∧
      Open fs OpenOutcome.ok = some (.ok db2, fs) ∧
      db2.indexes = db.indexes ∧ ∀ key, db2.Get fs key = db.Get fs key :=
  replay_fidelity FileSys.init [Op.put [1] [2], Op.put [3] [4], Op.del [1]] (Or.inl rfl)
    (by decide)

/-- C10: a directory whose data file holds a well-formed log `L` followed by a
proper, possibly empty, beginning `p` of one further encoded record opens
without error, and the keydir is the one that `Open` builds on `L` alone. -/
theorem Open_truncated_tail (fs1 fs2 : FileSys) (i1 i2 : Nat) (es : List Entry) (e : Entry)
    (p q : List Byte) (hwf : ∀ x ∈ es, x.WellFormed) (he : e.WellFormed)
    (hpq : p ++ q = e.bytes) (hq : q ≠ [])
    (hd1 : fs1.dataIno = some i1) (hc1 : fs1.inodes i1 = logBytes es ++ p)
    (hd2 : fs2.dataIno = some i2) (hc2 : fs2.inodes i2 = logBytes es) :
    ∃ db1 db2, Open fs1 OpenOutcome.ok = some (.ok db1, fs1) ∧
      Open fs2 OpenOutcome.ok = some (.ok db2, fs2) ∧ db1.indexes = db2.indexes := by
  refine ⟨_, _, Open_log fs1 i1 es p hd1 hwf hc1 ⟨e, q, he, hpq, hq⟩,
    Open_log fs2 i2 es [] hd2 hwf (by simpa using hc2) TornTail_nil, rfl⟩

theorem Open_truncated_tail_witness :
    ∃ db1 db2,
      Open (FileSys.ofLog (logBytes [newEntry [1] [2] PUT] ++ [1, 0, 0, 0, 1, 0, 0, 0, 0, 0, 9]))
        OpenOutcome.ok
        = some (.ok db1,
            FileSys.ofLog (logBytes [newEntry [1] [2] PUT] ++ [1, 0, 0, 0, 1, 0, 0, 0, 0, 0, 9])) ∧
      Open (FileSys.ofLog (logBytes [newEntry [1] [2] PUT])) OpenOutcome.ok
        = some (.ok db2, FileSys.ofLog (logBytes [newEntry [1] [2] PUT])) ∧
      db1.indexes = db2.indexes :=
  Open_truncated_tail _ _ 0 0 [newEntry [1] [2] PUT] (newEntry [9] [8] PUT)
    [1, 0, 0, 0, 1, 0, 0, 0, 0, 0, 9] [8] (by decide) (by decide) (by decide) (by decide)
    rfl rfl rfl rfl

/-! ## Merge -/

/-- While every step succeeds `Merge` keeps what `Get` returns: a store is
opened on a directory without a merge file whose data file
is absent or holds a well-formed log, and runs any sequence of `Put` and `Del`
requests (keys and values fitting the size fields, writes succeeding). Then
`Merge`, every step of it succeeding, returns nil, and afterwards `Get`
returns for every key what it returned before, and the keydir holds the same
set of keys. -/
theorem Merge_preserves_Get (fs0 : FileSys) (es0 : List Entry) (ops : List Op)
    (hlog : fs0.HoldsLog es0) (hmerge : fs0.mergeIno = none) (hfit : ∀ op ∈ ops, op.Fits) :
    ∃ db0 fs1 db fs db2 fs2,
      Open fs0 OpenOutcome.ok = some (.ok db0, fs1) ∧
      runOps ops (db0, fs1) = some (db, fs) ∧
      db.Merge fs MergeOutcomes.allOk = some (none, db2, fs2) ∧
      (∀ key, db2.Get fs2 key = db.Get fs key) ∧
      (∀ key, (db2.indexes key).isSome = (db.indexes key).isSome) := by
  obtain ⟨db0, fs1, db, fs, es, h1, h2, hinv, h4⟩ := reach_Inv fs0 es0 ops hlog hfit
  obtain ⟨db2, fs2, i2, k1, -, -, -, -, k6, k7⟩ :=
    Merge_spec_of_Inv db fs es hinv (by rw [h4, hmerge])
  exact ⟨db0, fs1, db, fs, db2, fs2, h1, h2, k1, k6, k7⟩

theorem Merge_preserves_Get_witness :
    ∃ db0 fs1 db fs db2 fs2,
      Open FileSys.init OpenOutcome.ok = some (.ok db0, fs1) ∧
      runOps [Op.put [1] [2], Op.put [3] [4], Op.put [1] [5], Op.del [3]] (db0, fs1)
        = some (db, fs) ∧
      db.Merge fs MergeOutcomes.allOk = some (none, db2, fs2) ∧
      (∀ key, db2.Get fs2 key = db.Get fs key) ∧
      (∀ key, (db2.indexes key).isSome = (db.indexes key).isSome) :=
  Merge_preserves_Get FileSys.init [] [Op.put [1] [2], Op.put [3] [4], Op.put [1] [5], Op.del [3]]
    ⟨by simp, Or.inl ⟨rfl, rfl⟩⟩ rfl (by decide)

/-- While every step succeeds `Merge` keeps exactly the live records: for a
store opened on a directory without a merge file whose data file is absent or
holds a well-formed log, after any sequence of `Put` and `Del` requests that
succeed, let `es` be the records of the log before `Merge`, every step of which
succeeds. After `Merge` the data file of the directory is the one the store
reads, it holds exactly the encodings, in log order, of the records of `es`
whose offset was the keydir entry of their key; each of them is a `PUT` and no
record of `es` with the same key lies at a higher offset; and the cursor is
the sum of their `GetSize()`. -/
theorem Merge_keeps_live_records (fs0 : FileSys) (es0 : List Entry) (ops : List Op)
    (hlog : fs0.HoldsLog es0) (hmerge : fs0.mergeIno = none) (hfit : ∀ op ∈ ops, op.Fits) :
    ∃ db0 fs1 db fs df es db2 fs2 df2,
      Open fs0 OpenOutcome.ok = some (.ok db0, fs1) ∧
      runOps ops (db0, fs1) = some (db, fs) ∧
      db.dbFile = some df ∧ fs.inodes df.File.ino = logBytes es ∧
      (∀ e ∈ es, e.WellFormed) ∧
      db.Merge fs MergeOutcomes.allOk = some (none, db2, fs2) ∧
      db2.dbFile = some df2 ∧ df2.File.closed = false ∧ fs2.dataIno = some df2.File.ino ∧
      fs2.inodes df2.File.ino = logBytes ((liveRecords db.indexes es).map Prod.snd) ∧
      (∀ p ∈ liveRecords db.indexes es, p ∈ withOffsets es 0 ∧ p.2.Mark = PUT ∧
        ∀ q ∈ withOffsets es 0, q.2.Key = p.2.Key → q.1 ≤ p.1) ∧
      df2.Offset = (((liveRecords db.indexes es).map Prod.snd).map Entry.GetSize).sum := by
  obtain ⟨db0, fs1, db, fs, es, h1, h2, hinv, h4⟩ := reach_Inv fs0 es0 ops hlog hfit
  obtain ⟨db2, fs2, i2, k1, k2, k3, -, k5, -, -⟩ :=
    Merge_spec_of_Inv db fs es hinv (by rw [h4, hmerge])
  obtain ⟨i, hdf, hdata, hcont, hwf, hidx⟩ := hinv
  refine ⟨db0, fs1, db, fs, _, es, db2, fs2, _, h1, h2, hdf, hcont, hwf, k1, k2, rfl, k3, k5,
    ?_, ?_⟩
  · intro p hp
    obtain ⟨s1, -, s3, s4⟩ := live_sound es db.indexes p hidx hp
    refine ⟨s1, ?_, s4⟩
    rcases (hwf p.2 (withOffsets_mem es 0 p s1)).2.2.2.2 with h | h
    · exact h
    · exact absurd h s3
  · simp only [dataHandle]
    exact logBytes_length _

theorem Merge_keeps_live_records_witness :
    ∃ db0 fs1 db fs df es db2 fs2 df2,
      Open FileSys.init OpenOutcome.ok = some (.ok db0, fs1) ∧
      runOps [Op.put [1] [2], Op.put [1] [3]] (db0, fs1) = some (db, fs) ∧
      db.dbFile = some df ∧ fs.inodes df.File.ino = logBytes es ∧
      (∀ e ∈ es, e.WellFormed) ∧
      db.Merge fs MergeOutcomes.allOk = some (none, db2, fs2) ∧
      db2.dbFile = some df2 ∧ df2.File.closed = false ∧ fs2.dataIno = some df2.File.ino ∧
      fs2.inodes df2.File.ino = logBytes ((liveRecords db.indexes es).map Prod.snd) ∧
      (∀ p ∈ liveRecords db.indexes es, p ∈ withOffsets es 0 ∧ p.2.Mark = PUT ∧
        ∀ q ∈ withOffsets es 0, q.2.Key = p.2.Key → q.1 ≤ p.1) ∧
      df2.Offset = (((liveRecords db.indexes es).map Prod.snd).map Entry.GetSize).sum :=
  Merge_keeps_live_records FileSys.init [] [Op.put [1] [2], Op.put [1] [3]]
    ⟨by simp, Or.inl ⟨rfl, rfl⟩⟩ rfl (by decide)

/-- C9, the code at the failing input: after `Put(1, 2); Put(1, 3)` a `Merge`
whose reopening of the renamed data file fails returns that error, yet the
keydir entry of the key has moved from 12 to 0, the handle of the store is
closed, the directory names another file as data file, and `Get`, which
returned the value before, now fails. -/
theorem Merge_reopen_failure_not_atomic :
    ∃ db fs db2 fs2 df2,
      runOps [Op.put [1] [2], Op.put [1] [3]] (freshDb, freshFs) = some (db, fs) ∧
      db.Merge fs MergeOutcomes.reopenFails = some (some Error.ErrOpen, db2, fs2) ∧
      db.indexes [1] = some 12 ∧ db2.indexes [1] = some 0 ∧
      db2.dbFile = some df2 ∧ df2.File.closed = true ∧
      fs.dataIno = some 0 ∧ fs2.dataIno = some 1 ∧
      db.Get fs [1] = some ([3], none) ∧ db2.Get fs2 [1] = some ([], some Error.ErrClosed) := by
  refine ⟨_, _, _, _, _, rfl, rfl, ?_, ?_, rfl, rfl, rfl, rfl, ?_, ?_⟩ <;> decide
/-! ## Replay, keydir and cursor -/

/-- C18: on a data file that holds a well-formed log `es` the replay of
`loadIndexerFromFile` ends, with the fuel of `Open` and with any larger fuel,
and the keydir it builds from an empty one maps `K` to `O` exactly when the
last record of `es` with key `K` is a `PUT` record at offset `O`; a key whose
last record is a `DEL` is absent. -/
theorem replay_latest_per_key (fs : FileSys) (i : Nat) (es : List Entry)
    (hdata : fs.dataIno = some i) (hcont : fs.inodes i = logBytes es)
    (hwf : ∀ e ∈ es, e.WellFormed) :
    ∃ db df, Open fs OpenOutcome.ok = some (.ok db, fs) ∧ db.dbFile = some df ∧
      Bitcask.loadIndexerFromFile { dbFile := some df, indexes := Keydir.empty } fs = some db ∧
      (∀ n, loadLoop df fs ((fs.inodes df.File.ino).length + 1 + n) 0 Keydir.empty
        = some db.indexes) ∧
      (∀ K O, db.indexes K = some O ↔ LastPutAt es K O) ∧
      (∀ K, LastIsDel es K → db.indexes K = none) := by
  obtain ⟨db, hopen, hinv⟩ := Inv_of_Open_log fs i es hdata hwf hcont
  have hload := loadIndexerFromFile_of_Inv db fs es hinv
  obtain ⟨j, hdf, hdata2, hcont2, -, hidx⟩ := hinv
  have hloop := loadLoop_whole (dataHandle j (logBytes es).length) fs rfl es []
    Keydir.empty hwf (by simpa [dataHandle] using hcont2) TornTail_nil
  refine ⟨db, _, hopen, hdf, ?_, ?_, ?_, ?_⟩
  · rw [← hdf]; exact hload
  · intro n
    rw [hidx]
    exact loadLoop_mono _ fs n _ 0 _ _ hloop
  · intro K O
    rw [hidx]
    exact replay_iff es hwf K O
  · intro K hK
    rw [hidx]
    exact replay_del es K hK

theorem replay_latest_per_key_witness :
    ∃ db df,
      Open (FileSys.ofLog (logBytes [newEntry [1] [2] PUT, newEntry [3] [] DEL,
        newEntry [1] [] DEL])) OpenOutcome.ok
        = some (.ok db, FileSys.ofLog (logBytes [newEntry [1] [2] PUT, newEntry [3] [] DEL,
            newEntry [1] [] DEL])) ∧
      db.dbFile = some df ∧
      Bitcask.loadIndexerFromFile { dbFile := some df, indexes := Keydir.empty }
        (FileSys.ofLog (logBytes [newEntry [1] [2] PUT, newEntry [3] [] DEL,
          newEntry [1] [] DEL])) = some db ∧
      (∀ n, loadLoop df (FileSys.ofLog (logBytes [newEntry [1] [2] PUT, newEntry [3] [] DEL,
          newEntry [1] [] DEL]))
          (((FileSys.ofLog (logBytes [newEntry [1] [2] PUT, newEntry [3] [] DEL,
            newEntry [1] [] DEL])).inodes df.File.ino).length + 1 + n) 0 Keydir.empty
        = some db.indexes) ∧
      (∀ K O, db.indexes K = some O ↔
        LastPutAt [newEntry [1] [2] PUT, newEntry [3] [] DEL, newEntry [1] [] DEL] K O) ∧
      (∀ K, LastIsDel [newEntry [1] [2] PUT, newEntry [3] [] DEL, newEntry [1] [] DEL] K →
        db.indexes K = none) :=
  replay_latest_per_key _ 0 [newEntry [1] [2] PUT, newEntry [3] [] DEL, newEntry [1] [] DEL]
    rfl rfl (by decide)

/-- While every step succeeds and no merge file is left over the keydir
invariant holds: a store is opened on a directory without a merge file whose
data file is absent or holds a well-formed log; the invariant holds after
`Open`, and it holds after any sequence of `Put`, `Del` and `Merge` requests
(keys and values fitting the size fields, every step of the operating system
succeeding), hence after each request of the sequence. -/
theorem keydir_invariant (fs0 : FileSys) (es0 : List Entry) (sts : List Step)
    (hlog : fs0.HoldsLog es0) (hmerge : fs0.mergeIno = none) (hfit : ∀ st ∈ sts, st.Fits) :
    ∃ db0 fs1 db fs, Open fs0 OpenOutcome.ok = some (.ok db0, fs1) ∧ KeydirSound db0 fs1 ∧
      runSteps sts (db0, fs1) = some (db, fs) ∧ KeydirSound db fs := by
  obtain ⟨db0, fs1, db, fs, es, h1, h2, h3, h4⟩ := reach_steps_Inv fs0 es0 sts hlog hmerge hfit
  exact ⟨db0, fs1, db, fs, h1, KeydirSound_of_Inv db0 fs1 es0 h2, h3,
    KeydirSound_of_Inv db fs es h4⟩

theorem keydir_invariant_witness :
    ∃ db0 fs1 db fs, Open FileSys.init OpenOutcome.ok = some (.ok db0, fs1) ∧
      KeydirSound db0 fs1 ∧
      runSteps [Step.put [1] [2], Step.put [1] [3], Step.merge, Step.del [1], Step.put [4] []]
        (db0, fs1) = some (db, fs) ∧ KeydirSound db fs :=
  keydir_invariant FileSys.init []
    [Step.put [1] [2], Step.put [1] [3], Step.merge, Step.del [1], Step.put [4] []]
    ⟨by simp, Or.inl ⟨rfl, rfl⟩⟩ rfl (by decide)

/-- Keys are independent while every step succeeds: in a store state reached
from `Open` (directory without merge file,
data file absent or a well-formed log) by `Put`, `Del` and `Merge` requests
that succeed, `Put(K, V)` and `Del(K)` with a succeeding write leave the
keydir entry of every other non-empty key `K'` and the result of `Get(K')`,
value and error, as they were. -/
theorem key_independence (fs0 : FileSys) (es0 : List Entry) (sts : List Step)
    (K K' V : List Byte) (hlog : fs0.HoldsLog es0) (hmerge : fs0.mergeIno = none)
    (hfit : ∀ st ∈ sts, st.Fits) (hK : K ≠ []) (hK' : K' ≠ []) (hne : K' ≠ K)
    (hKl : K.length < 2 ^ 32) (hVl : V.length < 2 ^ 32) :
    ∃ db0 fs1 db fs dbp fsp dbd fsd,
      Open fs0 OpenOutcome.ok = some (.ok db0, fs1) ∧
      runSteps sts (db0, fs1) = some (db, fs) ∧
      db.Put fs K V WriteOutcome.ok = some (none, dbp, fsp) ∧
      dbp.indexes K' = db.indexes K' ∧ dbp.Get fsp K' = db.Get fs K' ∧
      db.Del fs K WriteOutcome.ok = some (none, dbd, fsd) ∧
      dbd.indexes K' = db.indexes K' ∧ dbd.Get fsd K' = db.Get fs K' := by
  obtain ⟨db0, fs1, db, fs, es, h1, -, h3, hinv⟩ :=
    reach_steps_Inv fs0 es0 sts hlog hmerge hfit
  obtain ⟨dbp, fsp, p1, p2, -⟩ := Put_Inv db fs es K V hinv hK hKl hVl
  obtain ⟨dbd, fsd, esd, d1, d2, -⟩ := Del_Inv db fs es K hinv hKl
  have hp : dbp.indexes K' = db.indexes K' := by
    obtain ⟨i, hdf, -⟩ := hinv
    have := Put_eq db fs _ K V WriteOutcome.ok hdf hK
    rw [this] at p1
    have hdb := (Prod.mk.inj (Prod.mk.inj (Option.some.inj p1)).2).1
    rw [← hdb]
    simp [Keydir.set, hne]
  have hd : dbd.indexes K' = db.indexes K' := by
    cases hin : db.indexes K with
    | none =>
      rw [Del_absent db fs K _ hin] at d1
      have hdb := (Prod.mk.inj (Prod.mk.inj (Option.some.inj d1)).2).1
      rw [← hdb]
    | some o =>
      obtain ⟨i, hdf, -⟩ := hinv
      rw [Del_eq db fs _ K o WriteOutcome.ok hdf hK hin] at d1
      have hdb := (Prod.mk.inj (Prod.mk.inj (Option.some.inj d1)).2).1
      rw [← hdb]
      simp [Keydir.delete, hne]
  exact ⟨db0, fs1, db, fs, dbp, fsp, dbd, fsd, h1, h3, p1, hp,
    Get_extend db dbp fs fsp es _ K' hinv p2 hK' hp, d1, hd,
    Get_extend db dbd fs fsd es _ K' hinv d2 hK' hd⟩

theorem key_independence_witness :
    ∃ db0 fs1 db fs dbp fsp dbd fsd,
      Open FileSys.init OpenOutcome.ok = some (.ok db0, fs1) ∧
      runSteps [Step.put [1] [2], Step.put [3] [4], Step.merge] (db0, fs1) = some (db, fs) ∧
      db.Put fs [1] [9] WriteOutcome.ok = some (none, dbp, fsp) ∧
      dbp.indexes [3] = db.indexes [3] ∧ dbp.Get fsp [3] = db.Get fs [3] ∧
      db.Del fs [1] WriteOutcome.ok = some (none, dbd, fsd) ∧
      dbd.indexes [3] = db.indexes [3] ∧ dbd.Get fsd [3] = db.Get fs [3] :=
  key_independence FileSys.init [] [Step.put [1] [2], Step.put [3] [4], Step.merge]
    [1] [3] [9] ⟨by simp, Or.inl ⟨rfl, rfl⟩⟩ rfl (by decide) (by decide) (by decide)
    (by decide) (by decide) (by decide)

/-! ## Torn tails, failed writes and interleaved merges -/

/-- C11, the code at the failing input: the data file holds one record
followed by the three bytes `1, 0, 0`, a proper beginning of a record. `Open`
puts the cursor at 15, the size of the file; `Put(1, 2)` writes its record
there and `Get(1)` returns the value; after `Close` and a second `Open` the
replay stops at offset 12, and `Get(1)` finds no key. -/
theorem Put_after_torn_tail_is_lost :
    ∃ db fs df db1 fs1 db2,
      [1, 0, 0] ++ [0, 0, 0, 0, 0, 0, 0, 9] = (newEntry [9] [] PUT).bytes ∧
      Open (FileSys.ofLog (logBytes [newEntry [7] [8] PUT] ++ [1, 0, 0])) OpenOutcome.ok
        = some (.ok db, fs) ∧
      db.dbFile = some df ∧ df.Offset = 15 ∧
      db.Put fs [1] [2] WriteOutcome.ok = some (none, db1, fs1) ∧
      db1.Get fs1 [1] = some ([2], none) ∧
      db1.Close.1 = none ∧
      Open fs1 OpenOutcome.ok = some (.ok db2, fs1) ∧
      db2.indexes [1] = none ∧
      db2.Get fs1 [1] = some ([], some Error.ErrKeyNotFound) ∧
      db2.Get fs1 [7] = some ([8], none) := by
  refine ⟨_, _, _, _, _, _, ?_, rfl, rfl, rfl, rfl, ?_, rfl, rfl, rfl, ?_, ?_⟩ <;> decide

/-- C12, as the code behaves: on the store that `Open` returns on an empty
directory the first `Close` returns nil and the second returns the error of a
file that is already closed, not `ErrInvalidDatabaseFile`. -/
theorem second_Close_returns_ErrClosed :
    Open FileSys.init OpenOutcome.ok = some (.ok freshDb, freshFs) ∧
      freshDb.Close.1 = none ∧
      freshDb.Close.2.Close.1 = some Error.ErrClosed ∧
      freshDb.Close.2.Close.1 ≠ some Error.ErrInvalidDatabaseFile := by
  refine ⟨rfl, rfl, rfl, ?_⟩
  decide

/-- C12, amended: on every opened store the first `Close` returns nil and
closes the file; a second `Close` on that store returns the error of a file
that is already closed and changes nothing; `Close` returns
`ErrInvalidDatabaseFile` exactly on a store whose `dbFile` is nil. -/
theorem Close_twice (db : Bitcask) (df : DatabaseFile) (hdf : db.dbFile = some df)
    (hopen : df.File.closed = false) :
    db.Close.1 = none ∧
      db.Close.2.dbFile = some { df with File := { df.File with closed := true } } ∧
      db.Close.2.indexes = db.indexes ∧
      db.Close.2.Close = (some Error.ErrClosed, db.Close.2) ∧
      (∀ db0 : Bitcask, db0.Close.1 = some Error.ErrInvalidDatabaseFile ↔ db0.dbFile = none) := by
  refine ⟨?_, ?_, ?_, ?_, ?_⟩
  · simp [Bitcask.Close, hdf, OsFile.Close, hopen]
  · simp [Bitcask.Close, hdf, OsFile.Close, hopen]
  · simp [Bitcask.Close, hdf, OsFile.Close, hopen]
  · simp [Bitcask.Close, hdf, OsFile.Close, hopen]
  · intro db0
    cases h0 : db0.dbFile with
    | none => simp [Bitcask.Close, h0]
    | some d =>
      by_cases hc : d.File.closed = true <;> simp [Bitcask.Close, h0, OsFile.Close, hc]

theorem Close_twice_witness :
    freshDb.Close.1 = none ∧
      freshDb.Close.2.dbFile
        = some { freshFile with File := { freshFile.File with closed := true } } ∧
      freshDb.Close.2.indexes = freshDb.indexes ∧
      freshDb.Close.2.Close = (some Error.ErrClosed, freshDb.Close.2) ∧
      (∀ db0 : Bitcask, db0.Close.1 = some Error.ErrInvalidDatabaseFile ↔ db0.dbFile = none) :=
  Close_twice freshDb freshFile rfl rfl

/-- C13, the code at the failing input: whatever prefix of the record the
positional write manages to write, `DatabaseFile.Write` returns nil and moves
the cursor by the whole `GetSize()`; on a fresh store `Put(1, 2)` whose write
writes nothing returns nil, the cursor is 12 and the file is empty; `Del` of
a present key whose write writes nothing returns nil as well. -/
theorem Write_failure_is_dropped :
    (∀ (df : DatabaseFile) (fs : FileSys) (e : Entry) (n : Nat),
      (df.Write fs e (WriteOutcome.short n)).1 = none ∧
      (df.Write fs e (WriteOutcome.short n)).2.1.Offset = df.Offset + e.GetSize) ∧
    (freshFile.File.WriteAt freshFs (newEntry [1] [2] PUT).bytes 0 (WriteOutcome.short 0)).1
      = some Error.ErrWrite ∧
    (∃ db1 fs1 df1 db2 fs2 db3 fs3,
      freshDb.Put freshFs [1] [2] (WriteOutcome.short 0) = some (none, db1, fs1) ∧
      db1.dbFile = some df1 ∧ df1.Offset = 12 ∧ fs1.inodes df1.File.ino = [] ∧
      freshDb.Put freshFs [1] [2] WriteOutcome.ok = some (none, db2, fs2) ∧
      db2.Del fs2 [1] (WriteOutcome.short 0) = some (none, db3, fs3)) := by
  refine ⟨fun df fs e n => ⟨rfl, rfl⟩, rfl, ⟨_, _, _, _, _, _, _, rfl, rfl, rfl, rfl, rfl, rfl⟩⟩

/-- C14, the code at the failing input: whatever the positional write does,
`Put` of a non-empty key returns nil and points the keydir entry of the key at
the old cursor, and `Del` of a present key returns nil and removes the key.
On a fresh store `Put(1, 2)` whose
write writes nothing returns nil and the keydir, which had no entry for the
key, now maps it to 0; after a `Put(1, 2)` that succeeds, `Del(1)` whose write
writes nothing returns nil, removes the key from the keydir and leaves the
file without a `DEL` record, so that the next `Open` finds the key again. -/
theorem failed_append_changes_keydir :
    (∀ (db : Bitcask) (fs : FileSys) (df : DatabaseFile) (key value : List Byte)
        (w : WriteOutcome), db.dbFile = some df → key ≠ [] →
      ∃ db1 fs1, db.Put fs key value w = some (none, db1, fs1) ∧
        db1.indexes key = some df.Offset) ∧
    (∀ (db : Bitcask) (fs : FileSys) (df : DatabaseFile) (key : List Byte) (o : Nat)
        (w : WriteOutcome), db.dbFile = some df → key ≠ [] → db.indexes key = some o →
      ∃ db1 fs1, db.Del fs key w = some (none, db1, fs1) ∧ db1.indexes key = none) ∧
    ∃ db1 fs1 db2 fs2 db3 fs3 db4,
      freshDb.Put freshFs [1] [2] (WriteOutcome.short 0) = some (none, db1, fs1) ∧
      freshDb.indexes [1] = none ∧ db1.indexes [1] = some 0 ∧
      freshDb.Put freshFs [1] [2] WriteOutcome.ok = some (none, db2, fs2) ∧
      db2.Del fs2 [1] (WriteOutcome.short 0) = some (none, db3, fs3) ∧
      db2.indexes [1] = some 0 ∧ db3.indexes [1] = none ∧
      fs3.inodes 0 = fs2.inodes 0 ∧
      Open fs3 OpenOutcome.ok = some (.ok db4, fs3) ∧
      db4.Get fs3 [1] = some ([2], none) := by
  refine ⟨?_, ?_, ?_⟩
  · intro db fs df key value w hdf hk
    exact ⟨_, _, Put_eq db fs df key value w hdf hk, by simp [Keydir.set]⟩
  · intro db fs df key o w hdf hk hin
    exact ⟨_, _, Del_eq db fs df key o w hdf hk hin, by simp [Keydir.delete]⟩
  · refine ⟨_, _, _, _, _, _, _, rfl, rfl, ?_, rfl, rfl, ?_, ?_, ?_, rfl, ?_⟩ <;> decide

/-- C15, the code at the failing input: `Get` of a present non-empty key hands
back the very error that `Read` reports, `io.EOF` included. After a
`Put(1, 2)` whose write wrote
nothing the keydir offset of the key is the end of the file, and after one
whose write wrote eleven bytes the record is cut short; in both states
`Get(1)` returns an empty value and the error `io.EOF`. -/
theorem Get_returns_EOF :
    (∀ (db : Bitcask) (fs : FileSys) (df : DatabaseFile) (key : List Byte) (o : Nat),
      db.dbFile = some df → key ≠ [] → db.indexes key = some o →
      ∃ v, db.Get fs key = some (v, (df.Read fs o).2)) ∧
    ∃ db1 fs1 db2 fs2,
      freshDb.Put freshFs [1] [2] (WriteOutcome.short 0) = some (none, db1, fs1) ∧
      db1.indexes [1] = some 0 ∧ fs1.inodes 0 = [] ∧
      db1.Get fs1 [1] = some ([], some Error.EOF) ∧
      freshDb.Put freshFs [1] [2] (WriteOutcome.short 11) = some (none, db2, fs2) ∧
      db2.indexes [1] = some 0 ∧ fs2.inodes 0 = [1, 0, 0, 0, 1, 0, 0, 0, 0, 0, 1] ∧
      db2.Get fs2 [1] = some ([], some Error.EOF) := by
  refine ⟨?_, ?_⟩
  · intro db fs df key o hdf hk hin
    have hlen : key.length ≠ 0 := by simpa using hk
    rcases hr : df.Read fs o with ⟨e, err⟩
    have hne : ¬ ((none : Option Error) = some Error.ErrKeyNotFound) := by simp
    simp only [Bitcask.Get, hlen, if_false, Bitcask.exist, hin, hdf, hr, hne]
    split
    · exact ⟨_, rfl⟩
    · split <;> exact ⟨_, rfl⟩
  · refine ⟨_, _, _, _, rfl, ?_, ?_, ?_, rfl, ?_, ?_, ?_⟩ <;> decide

/-- C16, the code at the failing input: after `Put(1, 2)` the scan of `Merge`
collects that record; `Put(3, 4)` then completes, and `Get(3)` returns the
value; the swap of `Merge` then runs and returns nil, the new data file holds
the record of key 1 only, the keydir still maps key 3 to offset 12, and
`Get(3)` returns an empty value and `io.EOF`. -/
theorem Merge_loses_interleaved_Put :
    ∃ db1 fs1 valid db2 fs2 db3 fs3 df3,
      freshDb.Put freshFs [1] [2] WriteOutcome.ok = some (none, db1, fs1) ∧
      db1.mergeCollect fs1 = some (.ok valid) ∧
      db1.Put fs1 [3] [4] WriteOutcome.ok = some (none, db2, fs2) ∧
      db2.Get fs2 [3] = some ([4], none) ∧
      db2.mergeSwap fs2 valid MergeOutcomes.allOk = some (none, db3, fs3) ∧
      db3.dbFile = some df3 ∧ fs3.dataIno = some df3.File.ino ∧
      fs3.inodes df3.File.ino = (newEntry [1] [2] PUT).bytes ∧
      db3.indexes [3] = some 12 ∧
      db3.Get fs3 [3] = some ([], some Error.EOF) ∧
      db3.Get fs3 [1] = some ([2], none) := by
  refine ⟨_, _, _, _, _, _, _, _, rfl, rfl, rfl, ?_, rfl, rfl, rfl, ?_, ?_, ?_, ?_⟩ <;> decide

/-- C19, the code at the failing input: on a fresh store a `Put(1, 2)` whose
write writes nothing, and a `Put(1, 2)` issued after `Close`, both return nil
and leave the cursor at 12 while the data file holds no byte. -/
theorem cursor_passes_end_of_file :
    ∃ db1 fs1 df1 db2 fs2 df2,
      freshDb.Put freshFs [1] [2] (WriteOutcome.short 0) = some (none, db1, fs1) ∧
      db1.dbFile = some df1 ∧ df1.Offset = 12 ∧ (fs1.inodes df1.File.ino).length = 0 ∧
      freshDb.Close.1 = none ∧
      freshDb.Close.2.Put freshFs [1] [2] WriteOutcome.ok = some (none, db2, fs2) ∧
      db2.dbFile = some df2 ∧ df2.Offset = 12 ∧ (fs2.inodes df2.File.ino).length = 0 := by
  exact ⟨_, _, _, _, _, _, rfl, rfl, rfl, rfl, rfl, rfl, rfl, rfl, rfl⟩

/-- While every step succeeds the cursor is the size of the data file: in a
state reached from `Open` by `Put`, `Del` and `Merge` requests that succeed
the cursor equals the length of the file the store reads, and a further
`Put` with a succeeding write moves both by the header size plus the lengths
of key and value, the bytes already in the file staying in place. -/
theorem cursor_at_end_while_steps_succeed (fs0 : FileSys) (es0 : List Entry) (sts : List Step)
    (K V : List Byte) (hlog : fs0.HoldsLog es0) (hmerge : fs0.mergeIno = none)
    (hfit : ∀ st ∈ sts, st.Fits) (hK : K ≠ []) (hKl : K.length < 2 ^ 32)
    (hVl : V.length < 2 ^ 32) :
    ∃ db0 fs1 db fs df dbp fsp dfp,
      Open fs0 OpenOutcome.ok = some (.ok db0, fs1) ∧
      runSteps sts (db0, fs1) = some (db, fs) ∧
      db.dbFile = some df ∧ df.Offset = (fs.inodes df.File.ino).length ∧
      db.Put fs K V WriteOutcome.ok = some (none, dbp, fsp) ∧
      dbp.dbFile = some dfp ∧ dfp.File = df.File ∧
      dfp.Offset = df.Offset + (entryHeaderSize + K.length + V.length) ∧
      fsp.inodes dfp.File.ino = fs.inodes df.File.ino ++ (newEntry K V PUT).bytes ∧
      dfp.Offset = (fsp.inodes dfp.File.ino).length := by
  obtain ⟨db0, fs1, db, fs, es, h1, -, h3, hinv⟩ :=
    reach_steps_Inv fs0 es0 sts hlog hmerge hfit
  obtain ⟨i, hdf, hdata, hcont, hwf, hidx⟩ := hinv
  have hput := Put_eq db fs _ K V WriteOutcome.ok hdf hK
  have happ := WriteAt_ok_append (dataHandle i (logBytes es).length).File fs
    (newEntry K V PUT).bytes rfl
  have hi : (dataHandle i (logBytes es).length).File.ino = i := rfl
  rw [hi, hcont] at happ
  have hsize : (newEntry K V PUT).GetSize = entryHeaderSize + K.length + V.length := by
    have a1 : K.length % 2 ^ 32 = K.length := Nat.mod_eq_of_lt hKl
    have a2 : V.length % 2 ^ 32 = V.length := Nat.mod_eq_of_lt hVl
    simp only [Entry.GetSize, newEntry, a1, a2]
  refine ⟨db0, fs1, db, fs, _, _, _, _, h1, h3, hdf, ?_, hput, rfl, rfl, ?_, ?_, ?_⟩
  · simp [dataHandle, hcont]
  · simp [dataHandle, hsize]
  · simp only [dataHandle, hcont]
    exact happ
  · show (logBytes es).length + (newEntry K V PUT).GetSize = _
    have : ((dataHandle i (logBytes es).length).File.WriteAt fs (newEntry K V PUT).bytes
        (logBytes es).length WriteOutcome.ok).2.inodes i
        = logBytes es ++ (newEntry K V PUT).bytes := happ
    show _ = (((dataHandle i (logBytes es).length).File.WriteAt fs (newEntry K V PUT).bytes
        (logBytes es).length WriteOutcome.ok).2.inodes i).length
    rw [this, List.length_append, bytes_length]

/-! ## Merge after a failed write, a torn tail or a leftover merge file -/

/-- C7, the code at the failing inputs. First: after `Put(1, 2); Put(1, 3)` a
`Merge` whose write to the merge file writes nothing returns nil, the new data
file is empty, and `Get(1)`, which returned the value 3, returns an empty
value and `io.EOF`. Second, every step succeeding: the store is opened on one
record followed by the bytes `1, 0, 0`, `Put(1, 2)` succeeds and `Get(1)`
returns the value; `Merge` returns nil, and `Get(1)` returns an empty value
and `io.EOF`. -/
theorem Merge_returns_nil_yet_Get_changes :
    (∃ db fs db2 fs2,
      runOps [Op.put [1] [2], Op.put [1] [3]] (freshDb, freshFs) = some (db, fs) ∧
      db.Get fs [1] = some ([3], none) ∧
      db.Merge fs MergeOutcomes.writeFails = some (none, db2, fs2) ∧
      db2.Get fs2 [1] = some ([], some Error.EOF)) ∧
    (∃ db0 fs0 db fs db2 fs2,
      Open (FileSys.ofLog (logBytes [newEntry [7] [8] PUT] ++ [1, 0, 0])) OpenOutcome.ok
        = some (.ok db0, fs0) ∧
      fs0.mergeIno = none ∧
      runOps [Op.put [1] [2]] (db0, fs0) = some (db, fs) ∧
      db.Get fs [1] = some ([2], none) ∧
      db.Merge fs MergeOutcomes.allOk = some (none, db2, fs2) ∧
      db2.Get fs2 [1] = some ([], some Error.EOF)) := by
  refine ⟨⟨_, _, _, _, rfl, ?_, rfl, ?_⟩, ⟨_, _, _, _, _, _, rfl, rfl, rfl, ?_, rfl, ?_⟩⟩ <;>
    decide

/-- C8, the code at the failing inputs. First: after `Put(1, 2); Put(1, 3)`
the record at offset 12 is the one the keydir names; a `Merge` whose write to
the merge file writes nothing returns nil, and the new data file is empty with
the cursor at 0, not the encoding of that record. Second, every step
succeeding: on a store opened on one record followed by the bytes `1, 0, 0`,
after `Put(1, 2)` the keydir names offset 15 and the read there yields the
record of key 1; `Merge` returns nil and the new data file holds the record of
key 7 only, with the cursor at 12. -/
theorem Merge_log_misses_live_record :
    (∃ db fs db2 fs2 df2,
      runOps [Op.put [1] [2], Op.put [1] [3]] (freshDb, freshFs) = some (db, fs) ∧
      fs.inodes 0 = logBytes [newEntry [1] [2] PUT, newEntry [1] [3] PUT] ∧
      liveRecords db.indexes [newEntry [1] [2] PUT, newEntry [1] [3] PUT]
        = [(12, newEntry [1] [3] PUT)] ∧
      db.Merge fs MergeOutcomes.writeFails = some (none, db2, fs2) ∧
      db2.dbFile = some df2 ∧ fs2.dataIno = some df2.File.ino ∧
      fs2.inodes df2.File.ino = [] ∧ df2.Offset = 0) ∧
    (∃ db0 fs0 db fs df db2 fs2 df2,
      Open (FileSys.ofLog (logBytes [newEntry [7] [8] PUT] ++ [1, 0, 0])) OpenOutcome.ok
        = some (.ok db0, fs0) ∧
      fs0.mergeIno = none ∧
      runOps [Op.put [1] [2]] (db0, fs0) = some (db, fs) ∧
      db.dbFile = some df ∧ db.indexes [1] = some 15 ∧
      df.Read fs 15 = (some (newEntry [1] [2] PUT), none) ∧
      db.Merge fs MergeOutcomes.allOk = some (none, db2, fs2) ∧
      db2.dbFile = some df2 ∧ fs2.dataIno = some df2.File.ino ∧
      fs2.inodes df2.File.ino = (newEntry [7] [8] PUT).bytes ∧ df2.Offset = 12) := by
  refine ⟨⟨_, _, _, _, _, rfl, ?_, ?_, rfl, rfl, rfl, ?_, rfl⟩,
    ⟨_, _, _, _, _, _, _, _, rfl, rfl, rfl, rfl, ?_, ?_, rfl, rfl, rfl, ?_, rfl⟩⟩ <;> decide

/-- C17, the code at the failing input, every step succeeding: the directory
holds no data file and a leftover `bitcask.merge` with the bytes `9, 9, 9`.
After `Open; Put(1, 2); Put(1, 3); Merge` the data file is those three bytes
followed by the record, the keydir maps key 1 to offset 3, and an `Open` on
the directory replays no key. A second `Merge` returns nil and leaves an empty
data file while the keydir still maps key 1 to offset 3: the read there ends
with `io.EOF`, and the keydir invariant does not hold. -/
theorem leftover_merge_file_breaks_keydir :
    ∃ db0 fs0 db fs db1 db2 fs2 df2,
      Open (FileSys.withLeftoverMerge [9, 9, 9]) OpenOutcome.ok = some (.ok db0, fs0) ∧
      runSteps [Step.put [1] [2], Step.put [1] [3], Step.merge] (db0, fs0) = some (db, fs) ∧
      fs.dataIno = some 0 ∧ fs.inodes 0 = [9, 9, 9] ++ (newEntry [1] [3] PUT).bytes ∧
      db.indexes [1] = some 3 ∧
      Open fs OpenOutcome.ok = some (.ok db1, fs) ∧ db1.indexes [1] = none ∧
      runSteps [Step.merge] (db, fs) = some (db2, fs2) ∧
      db2.dbFile = some df2 ∧ fs2.dataIno = some df2.File.ino ∧
      fs2.inodes df2.File.ino = [] ∧ db2.indexes [1] = some 3 ∧
      df2.Read fs2 3 = (none, some Error.EOF) ∧
      ¬ KeydirSound db2 fs2 := by
  refine ⟨_, _, _, _, _, _, _, _, rfl, rfl, rfl, ?_, ?_, rfl, ?_, rfl, rfl, rfl, ?_, ?_, ?_, ?_⟩
  · decide
  · decide
  · decide
  · decide
  · decide
  · decide
  · exact not_KeydirSound_of_Read_error _ _ _ [1] 3 Error.EOF rfl (by decide) (by decide)

/-- C20, the code at the failing input: on a fresh store `Put(1, 2)` whose
write writes nothing leaves the cursor at 12 over an empty file, and `Get(1)`
returns an empty value and `io.EOF`. `Put(3, 4)`, its write succeeding, then
fills the gap below its record with zeros, and `Get(1)` returns an empty value
and a nil error, the keydir entry of key 1 being the same. -/
theorem Put_changes_Get_of_other_key :
    ∃ db1 fs1 db2 fs2,
      freshDb.Put freshFs [1] [2] (WriteOutcome.short 0) = some (none, db1, fs1) ∧
      db1.Get fs1 [1] = some ([], some Error.EOF) ∧
      db1.Put fs1 [3] [4] WriteOutcome.ok = some (none, db2, fs2) ∧
      fs2.inodes 0 = List.replicate 12 0 ++ (newEntry [3] [4] PUT).bytes ∧
      db2.indexes [1] = db1.indexes [1] ∧
      db2.Get fs2 [1] = some ([], none) := by
  refine ⟨_, _, _, _, rfl, ?_, rfl, ?_, ?_, ?_⟩ <;> decide

end bitcask
